import Mathlib

/-!
# Verification of the deepslate chunk-building and draw-ordering core

Shallow embedding of `src/util/Sort.ts` (stable LSD radix sort over float32
keys with a parallel payload) and `src/render/ChunkBuilder.ts` (chunk grid,
culling predicates, transparent draw ordering, lazy mesh merging), together
with proofs of the specified properties.

Conventions:
* 32-bit unsigned machine integers are modelled as `Nat` with explicit
  bounds `< 2 ^ 32`; a float32 value is modelled by its 32-bit IEEE-754
  bit pattern (a `Nat < 2 ^ 32`), which is exactly the information the
  sort routine manipulates.
* The two parallel arrays `keys` / `values` of `radixSort32WithValues`
  are embedded as a single list of pairs (the element at index `i` of the
  pair list is the pair of the elements at index `i` of the two arrays).
* Mutable arrays inside a counting-sort pass are embedded as functions
  `Nat → _` updated pointwise, threaded through a fold over the input,
  mirroring the source loops statement by statement.
-/

namespace Deepslate


/-! ## `src/util/Sort.ts`: the radix sort -/

/-- `BITS_PER_PASS = 8`, `BUCKETS = 1 << 8 = 256`, `MASK = 255`:
digit extraction `(key >>> shift) & MASK` from the pass loops. -/
def digit (shift key : Nat) : Nat := (key >>> shift) &&& 255

/-- A key together with its payload element: one slot of the two parallel
arrays of `radixSort32WithValues`. -/
abbrev Entry (α : Type) := Nat × α

/-- The counting loop of one pass:
`for (i) { count[(inKeys[i] >>> shift) & MASK]++ }`, the array `count`
embedded as a function `Nat → Nat` starting at all zeroes. -/
def countLoop (shift : Nat) (l : List (Entry α)) : Nat → Nat :=
  l.foldl (fun c x => fun b => if b = digit shift x.1 then c b + 1 else c b)
    (fun _ => 0)

/-- The entries of `l` having digit `b` at `shift`, in input order
(the contents of bucket `b` of one counting-sort pass). -/
def bucket (shift : Nat) (l : List (Entry α)) (b : Nat) : List (Entry α) :=
  l.filter (fun x => digit shift x.1 = b)

/-- The value of `count[b]` after the prefix-sum loop
(`sum += c; count[i] = previous sum`): number of entries with digit `< b`. -/
def offs (shift : Nat) (l : List (Entry α)) (b : Nat) : Nat :=
  ((List.range b).map (fun b' => (bucket shift l b').length)).sum

/-- First `n` iterations of the prefix-sum loop of one pass: state is the
mutable `count` array and the running `sum`;
`const c = count[i]; count[i] = sum; sum += c`. -/
def prefixGo (count : Nat → Nat) (n : Nat) : (Nat → Nat) × Nat :=
  (List.range n).foldl
    (fun s i =>
      let c := s.1 i
      (fun b => if b = i then s.2 else s.1 b, s.2 + c))
    (count, 0)

/-- The full prefix-sum loop (`for (i = 0; i < BUCKETS; i++)`). -/
def prefixLoop (count : Nat → Nat) : (Nat → Nat) × Nat := prefixGo count 256

/-- State of the scatter loop of one pass: the `count` array (holding the
next free position of each bucket) and the output array, embedded as a
partial map from positions to entries. -/
structure PassState (α : Type) where
  offsets : Nat → Nat
  out : Nat → Option (Entry α)

/-- One iteration of the scatter loop:
`bucket = (key >>> shift) & MASK; pos = count[bucket]++;
outKeys[pos] = key; outVals[pos] = inVals[i]`. -/
def scatterStep (shift : Nat) (s : PassState α) (x : Entry α) : PassState α :=
  let b := digit shift x.1
  let pos := s.offsets b
  { offsets := fun b2 => if b2 = b then pos + 1 else s.offsets b2
    out := fun i => if i = pos then some x else s.out i }

/-- The scatter loop over the whole input. -/
def scatterLoop (shift : Nat) (s : PassState α) (l : List (Entry α)) : PassState α :=
  l.foldl (scatterStep shift) s

/-- State at the start of the scatter loop: `count` holds the prefix sums,
the output array is uninitialized. -/
def initState (shift : Nat) (l : List (Entry α)) : PassState α :=
  { offsets := offs shift l, out := fun _ => none }

/-- One full counting-sort pass of `radixSort32WithValues`: counting loop,
prefix-sum loop, scatter loop, then reading the output array back as the
next input (the `[inKeys, outKeys] = [outKeys, inKeys]` swap). -/
def countingPass (shift : Nat) (l : List (Entry α)) : List (Entry α) :=
  (List.range l.length).filterMap
    (scatterLoop shift
      { offsets := (prefixLoop (countLoop shift l)).1, out := fun _ => none } l).out

/-- Loop invariant of the scatter loop, after the prefix `p` of the input
has been processed: each bucket's cursor sits `|bucket p b|` past its
prefix-sum start, and for every bucket the processed entries occupy the
positions from the bucket's start, in input order. -/
def Inv (shift : Nat) (l₀ p : List (Entry α)) (s : PassState α) : Prop :=
  (∀ b, s.offsets b = offs shift l₀ b + (bucket shift p b).length) ∧
  (∀ b j, j < (bucket shift p b).length →
    s.out (offs shift l₀ b + j) = (bucket shift p b)[j]?)

/-- Stable grouping by digit: the buckets in increasing digit order, each
keeping input order. The counting-sort pass produces exactly this. -/
def bucketJoin (shift : Nat) (l : List (Entry α)) : List (Entry α) :=
  ((List.range 256).map (bucket shift l)).flatten

/-- Concatenation of the first `B` buckets. -/
def bucketJoinUpTo (shift : Nat) (l : List (Entry α)) (B : Nat) : List (Entry α) :=
  ((List.range B).map (bucket shift l)).flatten

/-- `radixSort32WithValues`: the four LSD passes (`shift = 0, 8, 16, 24`).
The two parallel arrays `keys` and `values` are embedded as the single
list of their element pairs; the final `[inKeys, outKeys] = …` swaps make
the last pass's output the returned pair of arrays. -/
def radixSort32WithValues (l : List (Entry α)) : List (Entry α) :=
  countingPass 24 (countingPass 16 (countingPass 8 (countingPass 0 l)))

/-! ## Float32 keys

A float32 value is represented by its IEEE-754 bit pattern, a
`Nat < 2 ^ 32`: sign bit on top, then 8 exponent bits, then 23 mantissa
bits.  The sort routine manipulates exactly these patterns. -/

/-- Sign field of a float32 bit pattern (`bits & 0x80000000`, as 0/1). -/
def f32sign (b : Nat) : Nat := b / 2 ^ 31

/-- Magnitude field (exponent and mantissa together). -/
def f32mag (b : Nat) : Nat := b % 2 ^ 31

/-- Exponent field. -/
def f32exp (b : Nat) : Nat := b / 2 ^ 23 % 2 ^ 8

/-- Valid, finite (neither NaN nor ±∞) float32 bit pattern: the exponent
field is not all ones.  This is the sort's documented precondition
("inputs are finite (no NaN)"). -/
def isFiniteF32 (b : Nat) : Prop := b < 2 ^ 32 ∧ f32exp b ≠ 255

instance : DecidablePred isFiniteF32 := fun b => by
  unfold isFiniteF32
  infer_instance

/-- IEEE-754 numeric order `≤` on finite float32 bit patterns.  For equal
signs the magnitude field is ordered (reversed for negatives); a negative
value is below any non-negative one; `-0.0 = +0.0` is the one cross-sign
equality.  (For finite patterns the magnitude field orders exactly like
the represented magnitude.) -/
def f32le (a b : Nat) : Bool :=
  if f32sign a % 2 = 1 then
    if f32sign b % 2 = 1 then f32mag b ≤ f32mag a else true
  else
    if f32sign b % 2 = 1 then f32mag a = 0 && f32mag b = 0
    else f32mag a ≤ f32mag b

/-- The per-element body of `float32ToUint32Sortable`:
`if (bits & 0x80000000) { bits = ~bits } else { bits ^= 0x80000000 }`.
On a `Nat < 2 ^ 32`, the sign test is `2 ^ 31 ≤ bits`, uint32 bitwise
complement is `2 ^ 32 - 1 - bits`, and xor with the (clear) top bit is
`bits + 2 ^ 31`. -/
def encodeF32 (b : Nat) : Nat :=
  if 2 ^ 31 ≤ b then 2 ^ 32 - 1 - b else b + 2 ^ 31

/-- `float32ToUint32Sortable`: encode every key. -/
def float32ToUint32Sortable (l : List Nat) : List Nat := l.map encodeF32

/-- The per-element decode in step (c) of `radixSortFloat32WithKeys`:
`if (bits & 0x80000000) { bits ^= 0x80000000 } else { bits = ~bits }`.
Xor with the (set) top bit is `bits - 2 ^ 31`. -/
def decodeF32 (u : Nat) : Nat :=
  if 2 ^ 31 ≤ u then u - 2 ^ 31 else 2 ^ 32 - 1 - u

/-- `radixSortFloat32WithKeys`: length check, encode the float keys into
sortable uint32s, radix-sort them carrying the payload, decode back.
The parallel arrays travel as a list of pairs; the returned pair of lists
is `(sortedValues, sortedKeys)` of the source. -/
def radixSortFloat32WithKeys (floatVals : List Nat) (keys : List α) :
    Except String (List Nat × List α) :=
  if floatVals.length ≠ keys.length then
    .error "floatVals and keys must be same length"
  else
    let sorted := radixSort32WithValues
      ((float32ToUint32Sortable floatVals).zip keys)
    .ok (sorted.map (fun x => decodeF32 x.1), sorted.map Prod.snd)

/-- Encoding, sorting and decoding of the entry list, the composite
`radixSortFloat32WithKeys` performs after its length check. -/
def floatSortPairs (l : List (Entry α)) : List (Entry α) :=
  (radixSort32WithValues (l.map (fun x => (encodeF32 x.1, x.2)))).map
    (fun x => (decodeF32 x.1, x.2))

/-! ## `src/render/ChunkBuilder.ts`: the culling predicates

`needsCullBlock` and `needsCullWater` read, for a block and one of its six
neighbors: the neighbor's state (or its absence), the neighbor's resource
flags and queried opacity, the current block's name, waterlogged state and
cube-ness.  The embedding gathers these observable inputs in a context
record; the direction only matters beyond the lookup for the water rule's
`Direction.UP` test. -/

/-- The six face directions. -/
inductive Direction
  | up | down | west | east | north | south
deriving DecidableEq

/-- Block resource flags consulted by the culling code.  The `opaque`
flag is renamed `opaq` (`opaque` is reserved in Lean). -/
structure BlockFlags where
  opaq : Bool
  selfCulling : Bool
deriving DecidableEq

/-- The part of a `BlockState` the culling code reads: `isAir()`,
`isWaterlogged()`, `getName()` (an interned identifier), and the parsed
`level` property (`parseInt(getProperty('level') ?? '0')` keeps `none`
for an absent property, read back with default `0`). -/
structure BlockState where
  air : Bool
  waterlogged : Bool
  name : Nat
  level : Option Nat
deriving DecidableEq

/-- Observable inputs of one `needsCull*(block, dir)` evaluation: the
current block's name / waterlogged state / cube query, the neighbor at
`BlockPos.towards(block.pos, dir)` (if any), that neighbor's flags and
queried opacity. -/
structure CullCtx where
  blockName : Nat
  blockWaterlogged : Bool
  weAreCube : Bool
  neighbor : Option BlockState
  neighborFlags : Option BlockFlags
  neighborQueriedOpaq : Bool
deriving DecidableEq

/-- Truthiness of `neighborFlags?.opaque`. -/
def flagsOpaq (f : Option BlockFlags) : Bool := (f.map (·.opaq)).getD false

/-- Truthiness of `neighborFlags?.self_culling`. -/
def flagsSelfCulling (f : Option BlockFlags) : Bool :=
  (f.map (·.selfCulling)).getD false

/-- The resolved neighbor opacity:
`if (neighborFlags?.opaque) { true } else { getBlockIsOpaque(...) }`. -/
def neighborIsOpaq (ctx : CullCtx) : Bool :=
  if flagsOpaq ctx.neighborFlags then true else ctx.neighborQueriedOpaq

/-- `ChunkBuilder.needsCullBlock` (current revision). -/
def needsCullBlock (ctx : CullCtx) : Bool :=
  match ctx.neighbor with
  | none => false
  | some neighbor =>
    if neighbor.air then false
    else if ctx.weAreCube && (ctx.blockName == neighbor.name)
        && flagsSelfCulling ctx.neighborFlags then true
    else if neighborIsOpaq ctx && ctx.weAreCube then true
    else false

/-- `ChunkBuilder.needsCullWater` (current revision), the unreachable
`throw new Error('This line should not be reached')` embedded as the
error branch of an `Except`. -/
def needsCullWater (ctx : CullCtx) (dir : Direction) : Except String (Option Nat) :=
  match ctx.neighbor with
  | none => .ok none
  | some neighbor =>
    if neighbor.air then .ok none
    else
      let neighborLevel := neighbor.level.getD 0
      let weAreWaterLogged := ctx.blockWaterlogged
      let neighborIsWaterLogged := neighbor.waterlogged
      if weAreWaterLogged && neighborIsWaterLogged then .ok (some neighborLevel)
      else if weAreWaterLogged && !(neighborIsOpaq ctx) then .ok none
      else if weAreWaterLogged && neighborIsOpaq ctx && dir == Direction.up then
        .ok none
      else if weAreWaterLogged && neighborIsOpaq ctx && !(dir == Direction.up) then
        .ok (some neighborLevel)
      else if weAreWaterLogged then .error "This line should not be reached"
      else .ok (some neighborLevel)

/-- The water rule as the specification words it, case by case, first
match wins (in the specification's order). -/
def needsCullWaterSpec (ctx : CullCtx) (dir : Direction) : Option Nat :=
  match ctx.neighbor with
  | none => none
  | some neighbor =>
    if neighbor.air then none
    else if ctx.blockWaterlogged && neighbor.waterlogged then
      some (neighbor.level.getD 0)
    else if ctx.blockWaterlogged && !(neighborIsOpaq ctx) then none
    else if ctx.blockWaterlogged && neighborIsOpaq ctx && dir == Direction.up then
      none
    else if ctx.blockWaterlogged && neighborIsOpaq ctx
        && !(dir == Direction.up) then
      some (neighbor.level.getD 0)
    else some (neighbor.level.getD 0)

/-- The shape rule as the specification words it, case by case. -/
def needsCullBlockSpec (ctx : CullCtx) : Bool :=
  match ctx.neighbor with
  | none => false
  | some neighbor =>
    if neighbor.air then false
    else if (ctx.blockName == neighbor.name)
        && flagsSelfCulling ctx.neighborFlags && ctx.weAreCube then true
    else if neighborIsOpaq ctx && ctx.weAreCube then true
    else false

/-- The guard of the code's "should not be reached" branch: waterlogged,
with a real non-air neighbor, yet none of the four waterlogged cases
matched. -/
def waterFallThrough (ctx : CullCtx) (dir : Direction) : Bool :=
  match ctx.neighbor with
  | none => false
  | some neighbor =>
    !neighbor.air
    && ctx.blockWaterlogged
    && !(ctx.blockWaterlogged && neighbor.waterlogged)
    && !(ctx.blockWaterlogged && !(neighborIsOpaq ctx))
    && !(ctx.blockWaterlogged && neighborIsOpaq ctx && dir == Direction.up)
    && !(ctx.blockWaterlogged && neighborIsOpaq ctx && !(dir == Direction.up))

/-! ## Chunk coordinate encoding (`getChunk` / `getTransparentMeshes`) -/

/-- Per-axis index computation of `ChunkBuilder.getChunk`:
`Math.abs(c) * 2 + (c < 0 ? 1 : 0)`. -/
def encodeChunkCoord (c : Int) : Nat :=
  c.natAbs * 2 + (if c < 0 then 1 else 0)

/-- Per-axis decode used while enumerating chunks in
`getTransparentMeshes`: `(i % 2 === 0) ? i / 2 : -((i - 1) / 2)`. -/
def decodeChunkCoord (i : Nat) : Int :=
  if i % 2 = 0 then (i : Int) / 2 else -(((i : Int) - 1) / 2)

/-! ## Meshes, chunks and the chunk store -/

/-- Modelled from the spec: the `Mesh` class (`src/render/Mesh.ts` is not
among the sources; §4.3 and §3 describe it).  A mesh is an ordered
collection of quads (quads abstract, type `Q`); `merge` appends in order,
`mergeAll` is repeated `merge`, `isEmpty` tests for no content.  The
line-segment buffer and dirty flags play no role in the claims. -/
structure Mesh (Q : Type) where
  quads : List Q
deriving DecidableEq

/-- `new Mesh()`. -/
def Mesh.new {Q : Type} : Mesh Q := ⟨[]⟩

/-- Modelled from the spec: `merge` appends the other mesh's quads. -/
def Mesh.merge {Q : Type} (m other : Mesh Q) : Mesh Q := ⟨m.quads ++ other.quads⟩

/-- Modelled from the spec: `mergeAll(meshes)` is repeated `merge`. -/
def Mesh.mergeAll {Q : Type} (m : Mesh Q) (others : List (Mesh Q)) : Mesh Q :=
  others.foldl Mesh.merge m

/-- Modelled from the spec: no quads. -/
def Mesh.isEmpty {Q : Type} (m : Mesh Q) : Bool := m.quads.isEmpty

/-- The `Chunk` class of `ChunkBuilder.ts`: two pending unmerged lists and
two cached merged meshes (absent until first access). -/
structure Chunk (Q : Type) where
  unmergedMeshList : List (Mesh Q)
  unmergedTransparentMeshList : List (Mesh Q)
  mergedMesh : Option (Mesh Q)
  mergedTransparentMesh : Option (Mesh Q)
deriving DecidableEq

/-- `new Chunk()`. -/
def Chunk.new {Q : Type} : Chunk Q := ⟨[], [], none, none⟩

/-- `Chunk.merge(mesh, isTransparent)`: push onto the pending list. -/
def Chunk.mergeInto {Q : Type} (c : Chunk Q) (m : Mesh Q) (isTransparent : Bool) :
    Chunk Q :=
  if isTransparent then
    { c with unmergedTransparentMeshList := c.unmergedTransparentMeshList ++ [m] }
  else
    { c with unmergedMeshList := c.unmergedMeshList ++ [m] }

/-- `Chunk.getMesh()`: materialise the cached merged mesh if absent, drain
any pending meshes into it, return it.  The returned value and the updated
chunk model the in-place mutation. -/
def Chunk.getMesh {Q : Type} (c : Chunk Q) : Mesh Q × Chunk Q :=
  let merged := c.mergedMesh.getD Mesh.new
  if c.unmergedMeshList.length > 0 then
    let m := merged.mergeAll c.unmergedMeshList
    (m, { c with mergedMesh := some m, unmergedMeshList := [] })
  else
    (merged, { c with mergedMesh := some merged })

/-- `Chunk.getTransparentMesh()`, same shape on the transparent fields. -/
def Chunk.getTransparentMesh {Q : Type} (c : Chunk Q) : Mesh Q × Chunk Q :=
  let merged := c.mergedTransparentMesh.getD Mesh.new
  if c.unmergedTransparentMeshList.length > 0 then
    let m := merged.mergeAll c.unmergedTransparentMeshList
    (m, { c with mergedTransparentMesh := some m,
                 unmergedTransparentMeshList := [] })
  else
    (merged, { c with mergedTransparentMesh := some merged })

/-- `Chunk.clear()`. -/
def Chunk.clear {Q : Type} (_ : Chunk Q) : Chunk Q := ⟨[], [], none, none⟩

/-- The nested `Chunk[][][]` store.  JS assignment beyond the current
length leaves holes; holes at the two outer levels read back as empty
arrays and at the innermost level as a missing chunk, which is how every
reader treats them, so they are embedded that way. -/
abbrev ChunkStore (Q : Type) : Type := List (List (List (Option (Chunk Q))))

/-- Read `this.chunks[x]?.[y]?.[z]`. -/
def chunkAt {Q : Type} (s : ChunkStore Q) (x y z : Nat) : Option (Chunk Q) :=
  (((s.getD x []).getD y []).getD z none)

/-- `ChunkBuilder.getNonTransparentMeshes`:
`chunks.flatMap(x => x.flatMap(y => y.flatMap(chunk => …getMesh()…)))`,
returning each non-empty merged mesh; the second component models the
in-place drain of every visited chunk. -/
def getNonTransparentMeshes {Q : Type} (s : ChunkStore Q) :
    List (Mesh Q) × ChunkStore Q :=
  (s.flatMap (fun plane =>
      plane.flatMap (fun row =>
        row.flatMap (fun oc =>
          match oc with
          | none => []
          | some c =>
            let m := (c.getMesh).1
            if m.isEmpty then [] else [m]))),
   s.map (fun plane =>
      plane.map (fun row =>
        row.map (fun oc => oc.map (fun c => (c.getMesh).2)))))

/-- JS index assignment `l[i] = b`: grow the array as needed (new holes
read back as the level's empty value `dflt`), then set slot `i`. -/
def setAt {β : Type} (l : List β) (i : Nat) (b : β) (dflt : β) : List β :=
  (l ++ List.replicate (i + 1 - l.length) dflt).set i b

/-- `this.chunks[x][y][z] = c` with the two intermediate
`if (!…) … = []` allocations. -/
def setChunk {Q : Type} (s : ChunkStore Q) (x y z : Nat) (c : Chunk Q) :
    ChunkStore Q :=
  let plane := s.getD x []
  let row := plane.getD y []
  setAt s x (setAt plane y (setAt row z (some c) none) []) []

/-- Encoded store coordinates of a signed chunk coordinate. -/
def encodeChunkPos (p : Int × Int × Int) : Nat × Nat × Nat :=
  (encodeChunkCoord p.1, encodeChunkCoord p.2.1, encodeChunkCoord p.2.2)

/-- Read the chunk stored for a signed chunk coordinate. -/
def chunkAtPos {Q : Type} (s : ChunkStore Q) (p : Int × Int × Int) :
    Option (Chunk Q) :=
  chunkAt s (encodeChunkPos p).1 (encodeChunkPos p).2.1 (encodeChunkPos p).2.2

/-- `ChunkBuilder.getChunk(chunkPos)`: encode each axis, allocate the
missing levels (and the chunk itself when absent), return the chunk
together with the updated store. -/
def getChunk {Q : Type} (s : ChunkStore Q) (p : Int × Int × Int) :
    Chunk Q × ChunkStore Q :=
  let e := encodeChunkPos p
  match chunkAt s e.1 e.2.1 e.2.2 with
  | some c => (c, setChunk s e.1 e.2.1 e.2.2 c)
  | none => (Chunk.new, setChunk s e.1 e.2.1 e.2.2 Chunk.new)

/-! ## Transparent draw ordering (`getTransparentMeshes`) -/

/-- Geometric center of the chunk at store indices `(i, j, k)`:
decoded grid coordinate times chunk size plus half the chunk size, per
axis.  Scalars are exact rationals; the float32 rounding of the key
computation is the `toF32` parameter below. -/
def chunkCenter (size : Int × Int × Int) (i j k : Nat) : ℚ × ℚ × ℚ :=
  ((decodeChunkCoord i : ℚ) * (size.1 : ℚ) + (size.1 : ℚ) / 2,
   (decodeChunkCoord j : ℚ) * (size.2.1 : ℚ) + (size.2.1 : ℚ) / 2,
   (decodeChunkCoord k : ℚ) * (size.2.2 : ℚ) + (size.2.2 : ℚ) / 2)

/-- The triple index loop of `getTransparentMeshes`: every present chunk
paired with its geometric center, in enumeration order (missing rows and
chunks skipped). -/
def enumerateChunks {Q : Type} (s : ChunkStore Q) (size : Int × Int × Int) :
    List (Chunk Q × (ℚ × ℚ × ℚ)) :=
  s.enum.flatMap (fun pi =>
    pi.2.enum.flatMap (fun pj =>
      pj.2.enum.flatMap (fun pk =>
        match pk.2 with
        | none => []
        | some c => [(c, chunkCenter size pi.1 pj.1 pk.1)])))

/-- `-vec3.squaredDistance(center, cameraPos)`. -/
def negSquaredDistance (cam c : ℚ × ℚ × ℚ) : ℚ :=
  -((c.1 - cam.1) ^ 2 + (c.2.1 - cam.2.1) ^ 2 + (c.2.2 - cam.2.2) ^ 2)

/-- `sortChunkListByDistance`: build the `negDistances` float32 key array
(`toF32` is the value-to-float32-pattern conversion of the `Float32Array`
store) and radix-sort the entry list by it.  Defined as the sort's `ok`
payload; `sortChunkListByDistance_ok` below shows this is exactly what
the `radixSortFloat32WithKeys` call returns. -/
def sortChunkListByDistance {Q : Type} (toF32 : ℚ → Nat) (cam : ℚ × ℚ × ℚ)
    (chunkList : List (Chunk Q × (ℚ × ℚ × ℚ))) :
    List (Chunk Q × (ℚ × ℚ × ℚ)) :=
  (floatSortPairs
    ((chunkList.map (fun e => toF32 (negSquaredDistance cam e.2))).zip
      chunkList)).map Prod.snd

/-- `getTransparentMeshes(cameraPos)`: enumerate, sort by negated squared
camera distance, map each chunk to its merged transparent mesh, drop the
empty ones.  (The per-chunk drain performed by `getTransparentMesh` only
affects later reads, not the returned meshes, so the store update is not
carried here.) -/
def getTransparentMeshes {Q : Type} (s : ChunkStore Q) (size : Int × Int × Int)
    (cam : ℚ × ℚ × ℚ) (toF32 : ℚ → Nat) : List (Mesh Q) :=
  ((sortChunkListByDistance toF32 cam (enumerateChunks s size)).map
      (fun e => (e.1.getTransparentMesh).1)).filter (fun m => !m.isEmpty)

/-! ## Structure rebuild (`updateStructureBuffers`)

The per-block body of the rebuild loop is: skip air blocks, compute the
block's chunk coordinate by flooring `pos / chunkSize` per axis, skip the
block when a chunk set is given and the coordinate is outside it, fetch
the chunk, then run the fallible geometry build and merge its meshes into
the chunk.  Everything inside the `try` (definition lookup, cull
computation, mesh and special-mesh construction, transparency
resolution) is abstracted into its observable outcome: the list of
`(mesh, isTransparent)` merges it performs, or the error it throws. -/

/-- A placed block as the rebuild loop consumes it. -/
structure PlacedBlock where
  pos : Int × Int × Int
  air : Bool
deriving DecidableEq

/-- `Math.floor(b.pos[i] / this.chunkSize[i])` per axis (floor division). -/
def blockChunkPos (size : Int × Int × Int) (p : Int × Int × Int) :
    Int × Int × Int :=
  (Int.fdiv p.1 size.1, Int.fdiv p.2.1 size.2.1, Int.fdiv p.2.2 size.2.2)

/-- `chunkPositions.some(pos => vec3.equals(pos, chunkPos))` (membership;
chunk coordinates are integral, so the epsilon comparison is equality),
or `true` when no chunk set was passed. -/
def inChunkSet (cps : Option (List (Int × Int × Int)))
    (cpos : Int × Int × Int) : Bool :=
  match cps with
  | none => true
  | some ps => decide (cpos ∈ ps)

/-- Whether the rebuild loop reaches the per-block build for this block. -/
def blockProcessed (size : Int × Int × Int)
    (cps : Option (List (Int × Int × Int))) (b : PlacedBlock) : Bool :=
  !b.air && inChunkSet cps (blockChunkPos size b.pos)

/-- Clear phase, partial branch:
`chunkPositions.forEach(p => this.getChunk(p).clear())`. -/
def clearChunks {Q : Type} (s : ChunkStore Q)
    (ps : List (Int × Int × Int)) : ChunkStore Q :=
  ps.foldl (fun acc p =>
    let g := getChunk acc p
    let e := encodeChunkPos p
    setChunk g.2 e.1 e.2.1 e.2.2 (g.1.clear)) s

/-- Clear phase, full branch: clear every stored chunk. -/
def clearAllChunks {Q : Type} (s : ChunkStore Q) : ChunkStore Q :=
  s.map (fun plane => plane.map (fun row => row.map (fun oc => oc.map Chunk.clear)))

/-- Block loop of the current revision: a build failure is logged and
re-thrown (`console.error(...); throw e`), aborting the loop; the store
mutated so far persists and the error is reported to the caller. -/
def updateBlocksRev2 {Q : Type}
    (br : PlacedBlock → Except String (List (Mesh Q × Bool)))
    (size : Int × Int × Int) (cps : Option (List (Int × Int × Int))) :
    List PlacedBlock → ChunkStore Q → ChunkStore Q × Option String
  | [], s => (s, none)
  | b :: rest, s =>
    if b.air then updateBlocksRev2 br size cps rest s
    else
      let cpos := blockChunkPos size b.pos
      if !(inChunkSet cps cpos) then updateBlocksRev2 br size cps rest s
      else
        let g := getChunk s cpos
        match br b with
        | .error e => (g.2, some e)
        | .ok merges =>
          let c2 := merges.foldl (fun ch mt => ch.mergeInto mt.1 mt.2) g.1
          let e := encodeChunkPos cpos
          updateBlocksRev2 br size cps rest (setChunk g.2 e.1 e.2.1 e.2.2 c2)

/-- Block loop of the first revision: a build failure is logged
(`console.error(...)`) and the block skipped; the loop continues.  The
accumulated log models the console output. -/
def updateBlocksRev1 {Q : Type}
    (br : PlacedBlock → Except String (List (Mesh Q × Bool)))
    (size : Int × Int × Int) (cps : Option (List (Int × Int × Int))) :
    List PlacedBlock → ChunkStore Q → List String → ChunkStore Q × List String
  | [], s, log => (s, log)
  | b :: rest, s, log =>
    if b.air then updateBlocksRev1 br size cps rest s log
    else
      let cpos := blockChunkPos size b.pos
      if !(inChunkSet cps cpos) then updateBlocksRev1 br size cps rest s log
      else
        let g := getChunk s cpos
        match br b with
        | .error e => updateBlocksRev1 br size cps rest g.2 (log ++ [e])
        | .ok merges =>
          let c2 := merges.foldl (fun ch mt => ch.mergeInto mt.1 mt.2) g.1
          let e := encodeChunkPos cpos
          updateBlocksRev1 br size cps rest (setChunk g.2 e.1 e.2.1 e.2.2 c2) log

/-- `updateStructureBuffers(chunkPositions?)`, current revision: clear the
targeted chunks (all of them when no set is given), then run the block
loop.  Result: the mutated store and the escaped error, if any. -/
def updateStructureBuffersRev2 {Q : Type} (s : ChunkStore Q)
    (blocks : List PlacedBlock)
    (br : PlacedBlock → Except String (List (Mesh Q × Bool)))
    (size : Int × Int × Int) (cps : Option (List (Int × Int × Int))) :
    ChunkStore Q × Option String :=
  let s0 := match cps with
    | none => clearAllChunks s
    | some ps => clearChunks s ps
  updateBlocksRev2 br size cps blocks s0

/-- `updateStructureBuffers(chunkPositions?)`, first revision: same clear
phase, block loop that logs and continues. -/
def updateStructureBuffersRev1 {Q : Type} (s : ChunkStore Q)
    (blocks : List PlacedBlock)
    (br : PlacedBlock → Except String (List (Mesh Q × Bool)))
    (size : Int × Int × Int) (cps : Option (List (Int × Int × Int))) :
    ChunkStore Q × List String :=
  let s0 := match cps with
    | none => clearAllChunks s
    | some ps => clearChunks s ps
  updateBlocksRev1 br size cps blocks s0 []

/-- The error a build reports, if any. -/
def errOf {γ : Type} (r : Except String γ) : Option String :=
  match r with
  | .error e => some e
  | .ok _ => none

/-! ## Proofs -/

/-- `(key >>> shift) & 255` is the base-256 digit `key / 2 ^ shift % 256`. -/
theorem digit_eq (shift key : Nat) : digit shift key = key / 2 ^ shift % 256 := by
  have h := Nat.and_pow_two_sub_one_eq_mod (key >>> shift) 8
  norm_num at h
  simpa [digit, Nat.shiftRight_eq_div_pow] using h

theorem digit_lt (shift key : Nat) : digit shift key < 256 := by
  rw [digit_eq]; exact Nat.mod_lt _ (by norm_num)

theorem bucket_append (shift : Nat) (p q : List (Entry α)) (b : Nat) :
    bucket shift (p ++ q) b = bucket shift p b ++ bucket shift q b :=
  List.filter_append ..

theorem bucket_cons (shift : Nat) (x : Entry α) (l : List (Entry α)) (b : Nat) :
    bucket shift (x :: l) b =
      if digit shift x.1 = b then x :: bucket shift l b else bucket shift l b := by
  simp [bucket, List.filter_cons]

theorem mem_bucket {shift : Nat} {l : List (Entry α)} {b : Nat} {x : Entry α}
    (h : x ∈ bucket shift l b) : x ∈ l ∧ digit shift x.1 = b := by
  have := List.mem_filter.1 h
  simpa using this

private theorem countLoop_go (shift : Nat) (l : List (Entry α)) :
    ∀ (c : Nat → Nat) (b : Nat),
      (l.foldl (fun c x => fun b => if b = digit shift x.1 then c b + 1 else c b) c) b
        = c b + (bucket shift l b).length := by
  induction l with
  | nil => intro c b; simp [bucket]
  | cons x l ih =>
    intro c b
    rw [List.foldl_cons, ih, bucket_cons]
    by_cases hb : digit shift x.1 = b
    · simp only [if_pos hb, List.length_cons, if_pos hb.symm]
      omega
    · have hb' : ¬ b = digit shift x.1 := fun h => hb h.symm
      simp only [if_neg hb, if_neg hb']

/-- The counting loop indeed counts, per digit, the entries carrying it. -/
theorem countLoop_eq (shift : Nat) (l : List (Entry α)) (b : Nat) :
    countLoop shift l b = (bucket shift l b).length := by
  simpa using countLoop_go shift l (fun _ => 0) b

private theorem prefixGo_spec (count : Nat → Nat) : ∀ (n : Nat),
    (prefixGo count n).1
      = (fun b => if b < n then ((List.range b).map count).sum else count b)
    ∧ (prefixGo count n).2 = ((List.range n).map count).sum := by
  intro n
  induction n with
  | zero => constructor <;> simp [prefixGo]
  | succ n ih =>
    obtain ⟨ih1, ih2⟩ := ih
    have hstep : prefixGo count (n + 1)
        = (fun b => if b = n then (prefixGo count n).2 else (prefixGo count n).1 b,
           (prefixGo count n).2 + (prefixGo count n).1 n) := by
      rw [prefixGo, List.range_succ, List.foldl_append]
      rfl
    rw [hstep]
    constructor
    · funext b
      simp only [ih1, ih2]
      by_cases hb : b = n
      · subst hb
        simp
      · simp only [if_neg hb]
        by_cases h1 : b < n
        · simp [h1, show b < n + 1 by omega]
        · simp [h1, show ¬ b < n + 1 by omega]
    · simp only [ih1, ih2, List.range_succ]
      simp

/-- After the prefix-sum loop, `count[b]` holds `offs b` for every
bucket index `b < 256`. -/
theorem prefixLoop_eq (shift : Nat) (l : List (Entry α)) (b : Nat) (hb : b < 256) :
    (prefixLoop (countLoop shift l)).1 b = offs shift l b := by
  rw [prefixLoop, (prefixGo_spec (countLoop shift l) 256).1]
  simp only [if_pos hb, offs]
  congr 1
  exact List.map_congr_left (fun b' _ => countLoop_eq shift l b')

theorem offs_succ (shift : Nat) (l : List (Entry α)) (b : Nat) :
    offs shift l (b + 1) = offs shift l b + (bucket shift l b).length := by
  rw [offs, offs, List.range_succ]; simp

theorem offs_mono (shift : Nat) (l : List (Entry α)) {b1 b2 : Nat} (h : b1 ≤ b2) :
    offs shift l b1 ≤ offs shift l b2 := by
  induction h with
  | refl => exact Nat.le_refl _
  | step _ ih => exact Nat.le_trans ih (by rw [offs_succ]; omega)

private theorem bucket_prefix_length_le (shift : Nat) {p r : List (Entry α)}
    (b : Nat) : (bucket shift p b).length ≤ (bucket shift (p ++ r) b).length := by
  rw [bucket_append]
  simp

private theorem inv_step (shift : Nat) {l₀ p r : List (Entry α)} {x : Entry α}
    (hl : l₀ = p ++ x :: r) {s : PassState α} (hs : Inv shift l₀ p s) :
    Inv shift l₀ (p ++ [x]) (scatterStep shift s x) := by
  obtain ⟨hoff, hout⟩ := hs
  set b0 := digit shift x.1 with hb0
  have hpos : s.offsets b0 = offs shift l₀ b0 + (bucket shift p b0).length :=
    hoff b0
  -- the bucket of `x` still has room: `x` itself is unprocessed
  have hroom : (bucket shift p b0).length < (bucket shift l₀ b0).length := by
    rw [hl, bucket_append, bucket_cons, if_pos hb0.symm]
    simp
  -- total bucket contents bound the cursor within the bucket's interval
  have hbound : ∀ b, offs shift l₀ b + (bucket shift l₀ b).length
      = offs shift l₀ (b + 1) := fun b => (offs_succ shift l₀ b).symm
  have hsplit : bucket shift (p ++ [x]) b0 = bucket shift p b0 ++ [x] := by
    rw [bucket_append, bucket_cons, if_pos hb0.symm]
    simp [bucket]
  have hsplit2 : ∀ b, b ≠ b0 → bucket shift (p ++ [x]) b = bucket shift p b := by
    intro b hb
    rw [bucket_append, bucket_cons, if_neg (fun h => hb (hb0.trans h).symm)]
    simp [bucket]
  constructor
  · intro b
    by_cases hb : b = b0
    · subst hb
      simp only [scatterStep, if_pos rfl, hpos, hsplit]
      simp
      omega
    · simp only [scatterStep, if_neg hb, hoff b, hsplit2 b hb]
  · intro b j hj
    by_cases hb : b = b0
    · subst hb
      rw [hsplit] at hj
      simp only [List.length_append, List.length_cons, List.length_nil] at hj
      by_cases hj2 : j < (bucket shift p b0).length
      · -- previously written positions are untouched: they sit strictly
        -- below the cursor position
        have hne : offs shift l₀ b0 + j ≠ s.offsets b0 := by
          rw [hpos]; omega
        simp only [scatterStep, if_neg hne]
        rw [hout b0 j hj2, hsplit, List.getElem?_append_left hj2]
      · have hj3 : j = (bucket shift p b0).length := by omega
        subst hj3
        have heq : offs shift l₀ b0 + (bucket shift p b0).length
            = s.offsets b0 := hpos.symm
        simp only [scatterStep, if_pos heq]
        rw [hsplit, List.getElem?_concat_length]
    · rw [hsplit2 b hb] at hj
      -- position lies in bucket `b`'s interval, disjoint from the write
      have hne : offs shift l₀ b + j ≠ s.offsets b0 := by
        rw [hpos]
        rcases Nat.lt_or_ge b b0 with hlt | hge
        · have h1 : offs shift l₀ b + j < offs shift l₀ (b + 1) := by
            have := bucket_prefix_length_le shift (p := p)
              (r := x :: r) b
            rw [← hl] at this
            have := hbound b
            omega
          have h2 : offs shift l₀ (b + 1) ≤ offs shift l₀ b0 :=
            offs_mono shift l₀ hlt
          omega
        · have hgt : b0 < b := by omega
          have h1 : offs shift l₀ b0 + (bucket shift p b0).length
              < offs shift l₀ (b0 + 1) := by
            have := hbound b0
            omega
          have h2 : offs shift l₀ (b0 + 1) ≤ offs shift l₀ b :=
            offs_mono shift l₀ hgt
          omega
      simp only [scatterStep, if_neg hne]
      rw [hout b j hj, hsplit2 b hb]

private theorem inv_loop (shift : Nat) (l₀ : List (Entry α)) :
    ∀ (r p : List (Entry α)) (s : PassState α), l₀ = p ++ r →
      Inv shift l₀ p s → Inv shift l₀ l₀ (scatterLoop shift s r) := by
  intro r
  induction r with
  | nil =>
    intro p s hl hs
    rw [scatterLoop, List.foldl_nil]
    have hp : p = l₀ := by rw [hl, List.append_nil]
    rwa [hp] at hs
  | cons x r ih =>
    intro p s hl hs
    rw [scatterLoop, List.foldl_cons]
    exact ih (p ++ [x]) _ (by rw [hl, List.append_assoc]; rfl)
      (inv_step shift hl hs)

/-- The scatter loop, started from the prefix sums, satisfies the invariant
for the whole input. -/
theorem scatter_final (shift : Nat) (l : List (Entry α)) :
    Inv shift l l (scatterLoop shift (initState shift l) l) := by
  apply inv_loop shift l l [] (initState shift l) (by simp)
  constructor
  · intro b; simp [initState, bucket]
  · intro b j hj; simp [bucket] at hj

/-- The scatter loop only consults the cursor array at bucket indices
`< 256`, so two start states agreeing there produce the same output. -/
private theorem scatterLoop_congr (shift : Nat) :
    ∀ (l : List (Entry α)) (s1 s2 : PassState α),
      (∀ b, b < 256 → s1.offsets b = s2.offsets b) → s1.out = s2.out →
      (∀ b, b < 256 →
        (scatterLoop shift s1 l).offsets b = (scatterLoop shift s2 l).offsets b)
      ∧ (scatterLoop shift s1 l).out = (scatterLoop shift s2 l).out := by
  intro l
  induction l with
  | nil => intro s1 s2 h1 h2; exact ⟨fun b hb => h1 b hb, h2⟩
  | cons x l ih =>
    intro s1 s2 h1 h2
    simp only [scatterLoop, List.foldl_cons]
    have hd := digit_lt shift x.1
    have hpos : s1.offsets (digit shift x.1) = s2.offsets (digit shift x.1) :=
      h1 _ hd
    apply ih
    · intro b hb
      simp only [scatterStep]
      rw [hpos]
      by_cases h : b = digit shift x.1 <;> simp [h, h1 b hb]
    · simp only [scatterStep]
      rw [hpos, h2]

/-- The output array of the pass agrees with the `offs`-initialised run. -/
private theorem countingPass_out (shift : Nat) (l : List (Entry α)) :
    (scatterLoop shift
      { offsets := (prefixLoop (countLoop shift l)).1,
        out := fun _ => none } l).out
    = (scatterLoop shift (initState shift l) l).out :=
  (scatterLoop_congr shift l
    { offsets := (prefixLoop (countLoop shift l)).1, out := fun _ => none }
    (initState shift l)
    (fun b hb => prefixLoop_eq shift l b hb) rfl).2

theorem bucketJoinUpTo_succ (shift : Nat) (l : List (Entry α)) (B : Nat) :
    bucketJoinUpTo shift l (B + 1) = bucketJoinUpTo shift l B ++ bucket shift l B := by
  rw [bucketJoinUpTo, bucketJoinUpTo, List.range_succ]
  simp

theorem length_bucketJoinUpTo (shift : Nat) (l : List (Entry α)) (B : Nat) :
    (bucketJoinUpTo shift l B).length = offs shift l B := by
  rw [bucketJoinUpTo, List.length_flatten, offs, List.map_map]
  rfl

private theorem getElem?_bucketJoinUpTo (shift : Nat) (l : List (Entry α)) :
    ∀ (B b j : Nat), b < B → j < (bucket shift l b).length →
      (bucketJoinUpTo shift l B)[offs shift l b + j]? = (bucket shift l b)[j]? := by
  intro B
  induction B with
  | zero => intro b j hb; omega
  | succ B ih =>
    intro b j hb hj
    rw [bucketJoinUpTo_succ]
    by_cases hbB : b < B
    · have hlt : offs shift l b + j < (bucketJoinUpTo shift l B).length := by
        rw [length_bucketJoinUpTo]
        have h1 : offs shift l b + j < offs shift l (b + 1) := by
          rw [offs_succ]; omega
        exact Nat.lt_of_lt_of_le h1 (offs_mono shift l hbB)
      rw [List.getElem?_append_left hlt]
      exact ih b j hbB hj
    · have hbeq : b = B := by omega
      subst hbeq
      rw [List.getElem?_append_right (by rw [length_bucketJoinUpTo]; omega)]
      rw [length_bucketJoinUpTo, Nat.add_sub_cancel_left]

/-- Every position below the total count decomposes uniquely into a bucket
start plus an in-bucket index. -/
private theorem pos_decompose (shift : Nat) (l : List (Entry α)) :
    ∀ (B i : Nat), i < offs shift l B →
      ∃ b, b < B ∧ ∃ j, j < (bucket shift l b).length ∧ i = offs shift l b + j := by
  intro B
  induction B with
  | zero => intro i hi; simp [offs] at hi
  | succ B ih =>
    intro i hi
    by_cases h : i < offs shift l B
    · obtain ⟨b, hb, j, hj, hij⟩ := ih i h
      exact ⟨b, by omega, j, hj, hij⟩
    · refine ⟨B, by omega, i - offs shift l B, ?_, by omega⟩
      rw [offs_succ] at hi
      omega

private theorem flatten_map_singleton (f : Nat → List β) (n : Nat) :
    ((List.map f [n]).flatten) = f n := by simp

private theorem flatten_cons_perm (g g' : Nat → List β) (x : β) (b0 : Nat) :
    ∀ (n : Nat), b0 < n → (∀ b, g' b = if b = b0 then x :: g b else g b) →
      ((List.range n).map g').flatten.Perm (x :: ((List.range n).map g).flatten) := by
  intro n
  induction n with
  | zero => intro h; omega
  | succ n ih =>
    intro hb0 hg
    rw [List.range_succ, List.map_append, List.map_append,
      List.flatten_append, List.flatten_append,
      flatten_map_singleton, flatten_map_singleton]
    by_cases hlast : b0 = n
    · subst hlast
      have hsame : (List.range b0).map g' = (List.range b0).map g :=
        List.map_congr_left (fun b hb => by
          rw [hg b, if_neg]
          intro h; subst h; exact absurd (List.mem_range.1 hb) (Nat.lt_irrefl b))
      rw [hsame, hg b0, if_pos rfl]
      exact List.perm_middle
    · have hlt : b0 < n := by omega
      have hx := ih hlt hg
      rw [hg n, if_neg (fun h => hlast h.symm)]
      refine (hx.append_right (g n)).trans ?_
      rw [List.cons_append]

/-- The stable digit grouping is a permutation of the input. -/
theorem bucketJoin_perm (shift : Nat) (l : List (Entry α)) :
    (bucketJoin shift l).Perm l := by
  induction l with
  | nil =>
    rw [bucketJoin]
    have hnil : ((List.range 256).map (bucket shift ([] : List (Entry α)))).flatten
        = [] := by
      rw [List.flatten_eq_nil_iff]
      intro ls hls
      obtain ⟨b, _, rfl⟩ := List.mem_map.1 hls
      simp [bucket]
    rw [hnil]
  | cons x l ih =>
    have hstep := flatten_cons_perm (bucket shift l) (bucket shift (x :: l)) x
      (digit shift x.1) 256 (digit_lt shift x.1)
      (fun b => by
        rw [bucket_cons]
        by_cases h : digit shift x.1 = b
        · rw [if_pos h, if_pos h.symm]
        · rw [if_neg h, if_neg (fun hh => h hh.symm)])
    exact hstep.trans (ih.cons x)

theorem length_bucketJoin (shift : Nat) (l : List (Entry α)) :
    (bucketJoin shift l).length = l.length :=
  (bucketJoin_perm shift l).length_eq

private theorem filterMap_getElem?_range (l : List β) :
    (List.range l.length).filterMap (fun i => l[i]?) = l := by
  induction l with
  | nil => simp
  | cons x l ih =>
    rw [List.length_cons, List.range_succ_eq_map, List.filterMap_cons]
    simp only [List.getElem?_cons_zero, List.filterMap_map]
    have : (fun i => (x :: l)[i + 1]?) = fun i => l[i]? := by
      funext i; exact List.getElem?_cons_succ ..
    simp only [Function.comp_def, List.getElem?_cons_succ]
    rw [ih]

/-- The counting-sort pass is exactly stable grouping by digit. -/
theorem countingPass_eq_bucketJoin (shift : Nat) (l : List (Entry α)) :
    countingPass shift l = bucketJoin shift l := by
  have hfin := scatter_final shift l
  have hn : l.length = offs shift l 256 := by
    rw [← length_bucketJoinUpTo]
    exact (length_bucketJoin shift l).symm
  have hout : ∀ i ∈ List.range l.length,
      (scatterLoop shift (initState shift l) l).out i = (bucketJoin shift l)[i]? := by
    intro i hi
    have hi' : i < offs shift l 256 := hn ▸ List.mem_range.1 hi
    obtain ⟨b, hb, j, hj, hij⟩ := pos_decompose shift l 256 i hi'
    subst hij
    rw [hfin.2 b j hj]
    exact (getElem?_bucketJoinUpTo shift l 256 b j hb hj).symm
  rw [countingPass, countingPass_out, List.filterMap_congr hout]
  have hlen : l.length = (bucketJoin shift l).length :=
    (length_bucketJoin shift l).symm
  rw [hlen, filterMap_getElem?_range]

/-- A counting-sort pass permutes its input. -/
theorem countingPass_perm (shift : Nat) (l : List (Entry α)) :
    (countingPass shift l).Perm l :=
  countingPass_eq_bucketJoin shift l ▸ bucketJoin_perm shift l

private theorem flatten_map_ite (F : List β) (b0 : Nat) :
    ∀ n, b0 < n →
      ((List.range n).map (fun b => if b = b0 then F else [])).flatten = F := by
  intro n
  induction n with
  | zero => intro h; omega
  | succ n ih =>
    intro hb0
    rw [List.range_succ, List.map_append, List.flatten_append,
      flatten_map_singleton]
    by_cases hlast : b0 = n
    · subst hlast
      have hpre : ((List.range b0).map
          (fun b => if b = b0 then F else ([] : List β))).flatten = [] := by
        rw [List.flatten_eq_nil_iff]
        intro ls hls
        obtain ⟨b, hb, rfl⟩ := List.mem_map.1 hls
        rw [if_neg]
        intro h; subst h; exact absurd (List.mem_range.1 hb) (Nat.lt_irrefl b)
      rw [hpre, if_pos rfl]
      rfl
    · rw [ih (by omega), if_neg (fun h => hlast h.symm), List.append_nil]

/-- Entries with one fixed key keep their relative order across a pass
(stability of the counting sort: equal keys share a digit, hence a bucket,
and buckets keep input order). -/
theorem countingPass_filter_key (shift : Nat) (l : List (Entry α)) (k : Nat) :
    (countingPass shift l).filter (fun x => x.1 = k)
      = l.filter (fun x => x.1 = k) := by
  rw [countingPass_eq_bucketJoin, bucketJoin, List.filter_flatten, List.map_map]
  have hbucket : ∀ b, (bucket shift l b).filter (fun x => x.1 = k)
      = if b = digit shift k then l.filter (fun x => x.1 = k) else [] := by
    intro b
    by_cases hb : b = digit shift k
    · subst hb
      rw [if_pos rfl, bucket, List.filter_filter]
      apply List.filter_congr
      intro x _
      by_cases hx : x.1 = k
      · simp [hx]
      · simp [hx]
    · rw [if_neg hb, List.filter_eq_nil_iff]
      intro x hx hk
      obtain ⟨-, hd⟩ := mem_bucket hx
      have hxk : x.1 = k := by simpa using hk
      exact hb (by rw [← hd, hxk])
  have hmap : (List.range 256).map
        ((fun xs => List.filter (fun x => decide (x.1 = k)) xs) ∘ bucket shift l)
      = (List.range 256).map
        (fun b => if b = digit shift k then l.filter (fun x => x.1 = k) else []) :=
    List.map_congr_left (fun b _ => hbucket b)
  rw [hmap, flatten_map_ite _ _ 256 (digit_lt shift k)]

/-- `key % 2 ^ (shift + 8)` splits into the digit at `shift` above the low
`shift` bits. -/
private theorem mod_split (shift k : Nat) :
    k % 2 ^ (shift + 8) = digit shift k * 2 ^ shift + k % 2 ^ shift := by
  rw [digit_eq, pow_add, Nat.mod_mul]
  have : (2 : Nat) ^ 8 = 256 := by norm_num
  rw [this]
  ring

private theorem pairwise_of_total (R : γ → γ → Prop) (h : ∀ a b, R a b) :
    ∀ l : List γ, l.Pairwise R := by
  intro l
  induction l with
  | nil => exact List.Pairwise.nil
  | cons x l ih => exact List.Pairwise.cons (fun y _ => h x y) ih

/-- A pass refines sortedness: input sorted on the low `shift` bits comes
out sorted on the low `shift + 8` bits. -/
theorem countingPass_sorted (shift : Nat) (l : List (Entry α))
    (h : l.Pairwise (fun a b => a.1 % 2 ^ shift ≤ b.1 % 2 ^ shift)) :
    (countingPass shift l).Pairwise
      (fun a b => a.1 % 2 ^ (shift + 8) ≤ b.1 % 2 ^ (shift + 8)) := by
  rw [countingPass_eq_bucketJoin, bucketJoin]
  rw [List.pairwise_flatten]
  constructor
  · intro l' hl'
    obtain ⟨b, -, rfl⟩ := List.mem_map.1 hl'
    have hsub : (bucket shift l b).Pairwise
        (fun a c => a.1 % 2 ^ shift ≤ c.1 % 2 ^ shift) :=
      h.sublist (List.filter_sublist l)
    refine hsub.imp_of_mem ?_
    intro a c ha hc hle
    have hda := (mem_bucket ha).2
    have hdc := (mem_bucket hc).2
    rw [mod_split, mod_split, hda, hdc]
    omega
  · rw [List.pairwise_map]
    refine (List.pairwise_lt_range 256).imp_of_mem ?_
    intro b1 b2 _ _ hlt x hx y hy
    have hdx := (mem_bucket hx).2
    have hdy := (mem_bucket hy).2
    rw [mod_split, mod_split, hdx, hdy]
    have h1 : x.1 % 2 ^ shift < 2 ^ shift :=
      Nat.mod_lt _ (Nat.pos_pow_of_pos _ (by norm_num))
    have h2 : b1 * 2 ^ shift + 2 ^ shift ≤ b2 * 2 ^ shift := by
      have h3 : (b1 + 1) * 2 ^ shift ≤ b2 * 2 ^ shift :=
        Nat.mul_le_mul_right _ hlt
      rwa [Nat.add_mul, one_mul] at h3
    calc b1 * 2 ^ shift + x.1 % 2 ^ shift
        ≤ b1 * 2 ^ shift + 2 ^ shift := Nat.add_le_add_left (Nat.le_of_lt h1) _
      _ ≤ b2 * 2 ^ shift := h2
      _ ≤ b2 * 2 ^ shift + y.1 % 2 ^ shift := Nat.le_add_right _ _

theorem radixSort32WithValues_perm (l : List (Entry α)) :
    (radixSort32WithValues l).Perm l :=
  ((((countingPass_perm 24 _).trans (countingPass_perm 16 _)).trans
    (countingPass_perm 8 _)).trans (countingPass_perm 0 l))

theorem radixSort32WithValues_filter_key (l : List (Entry α)) (k : Nat) :
    (radixSort32WithValues l).filter (fun x => x.1 = k)
      = l.filter (fun x => x.1 = k) := by
  rw [radixSort32WithValues, countingPass_filter_key, countingPass_filter_key,
    countingPass_filter_key, countingPass_filter_key]

theorem radixSort32WithValues_sorted (l : List (Entry α))
    (hk : ∀ x ∈ l, x.1 < 2 ^ 32) :
    (radixSort32WithValues l).Pairwise (fun a b => a.1 ≤ b.1) := by
  have h0 : l.Pairwise (fun a b : Entry α => a.1 % 2 ^ 0 ≤ b.1 % 2 ^ 0) :=
    pairwise_of_total _ (fun a b => by simp [Nat.mod_one]) l
  have h8 := countingPass_sorted 0 l h0
  have h16 := countingPass_sorted 8 _ (by simpa using h8)
  have h24 := countingPass_sorted 16 _ (by simpa using h16)
  have h32 := countingPass_sorted 24 _ (by simpa using h24)
  have hmem : ∀ x ∈ radixSort32WithValues l, x.1 < 2 ^ 32 := by
    intro x hx
    exact hk x ((radixSort32WithValues_perm l).mem_iff.1 hx)
  refine List.Pairwise.imp_of_mem ?_ (by simpa [radixSort32WithValues] using h32)
  intro a b ha hb hle
  have h1 := hmem a ha
  have h2 := hmem b hb
  norm_num at h1 h2 hle
  omega

theorem encodeF32_lt (b : Nat) (hb : b < 2 ^ 32) : encodeF32 b < 2 ^ 32 := by
  unfold encodeF32
  split <;> omega

theorem decodeF32_encodeF32 (b : Nat) (hb : b < 2 ^ 32) :
    decodeF32 (encodeF32 b) = b := by
  unfold encodeF32 decodeF32
  by_cases h : 2 ^ 31 ≤ b
  · rw [if_pos h, if_neg (by omega)]
    omega
  · rw [if_neg h, if_pos (by omega)]
    omega

/-- The encoding reflects the numeric order: encoded keys in ascending
unsigned order decode to numerically non-decreasing float32 values. -/
theorem f32le_of_encode_le {a b : Nat} (ha : a < 2 ^ 32) (hb : b < 2 ^ 32)
    (h : encodeF32 a ≤ encodeF32 b) : f32le a b = true := by
  unfold encodeF32 at h
  unfold f32le f32sign f32mag
  by_cases hsa : 2 ^ 31 ≤ a
  · have h1 : a / 2 ^ 31 % 2 = 1 := by omega
    rw [if_pos h1]
    by_cases hsb : 2 ^ 31 ≤ b
    · have h2 : b / 2 ^ 31 % 2 = 1 := by omega
      rw [if_pos h2, if_pos hsa, if_pos hsb] at *
      simp only [decide_eq_true_eq]
      omega
    · have h2 : ¬ b / 2 ^ 31 % 2 = 1 := by omega
      rw [if_neg h2]
  · have h1 : ¬ a / 2 ^ 31 % 2 = 1 := by omega
    rw [if_neg h1]
    by_cases hsb : 2 ^ 31 ≤ b
    · -- encoded negative keys sit strictly below encoded non-negative keys,
      -- so `h` is impossible here
      rw [if_neg hsa, if_pos hsb] at h
      omega
    · have h2 : ¬ b / 2 ^ 31 % 2 = 1 := by omega
      rw [if_neg h2, if_neg hsa, if_neg hsb] at *
      simp only [decide_eq_true_eq]
      omega

private theorem floatSortPairs_core (l : List (Entry α))
    (hfin : ∀ x ∈ l, isFiniteF32 x.1) :
    (floatSortPairs l).Perm l
    ∧ (floatSortPairs l).Pairwise (fun a b => f32le a.1 b.1)
    ∧ ∀ k, (floatSortPairs l).filter (fun x => x.1 = k)
        = l.filter (fun x => x.1 = k) := by
  set enc := l.map (fun x : Entry α => (encodeF32 x.1, x.2)) with henc
  set sorted := radixSort32WithValues enc with hsorted
  have hbound : ∀ x ∈ l, x.1 < 2 ^ 32 := fun x hx => (hfin x hx).1
  have hkeys : ∀ x ∈ enc, x.1 < 2 ^ 32 := by
    intro x hx
    rw [henc] at hx
    obtain ⟨y, hy, rfl⟩ := List.mem_map.1 hx
    exact encodeF32_lt _ (hbound y hy)
  have hmemform : ∀ x ∈ sorted, ∃ y ∈ l, x = (encodeF32 y.1, y.2) := by
    intro x hx
    have : x ∈ enc := (radixSort32WithValues_perm enc).mem_iff.1 hx
    rw [henc] at this
    obtain ⟨y, hy, rfl⟩ := List.mem_map.1 this
    exact ⟨y, hy, rfl⟩
  have hperm : (floatSortPairs l).Perm l := by
    have h1 : (floatSortPairs l).Perm
        (enc.map (fun x => (decodeF32 x.1, x.2))) :=
      ((radixSort32WithValues_perm enc).map _)
    have h2 : enc.map (fun x : Entry α => (decodeF32 x.1, x.2)) = l := by
      rw [henc, List.map_map]
      have : ∀ x ∈ l,
          ((fun x : Entry α => (decodeF32 x.1, x.2)) ∘
            (fun x : Entry α => (encodeF32 x.1, x.2))) x = id x := by
        intro x hx
        simp [decodeF32_encodeF32 x.1 (hbound x hx)]
      rw [List.map_congr_left this, List.map_id]
    rw [h2] at h1
    exact h1
  refine ⟨hperm, ?_, ?_⟩
  · have hs : sorted.Pairwise (fun a b => a.1 ≤ b.1) :=
      radixSort32WithValues_sorted enc hkeys
    have hs2 : sorted.Pairwise
        (fun a b => f32le (decodeF32 a.1) (decodeF32 b.1) = true) := by
      refine hs.imp_of_mem ?_
      intro a b ha hb hle
      obtain ⟨u, hu, rfl⟩ := hmemform a ha
      obtain ⟨v, hv, rfl⟩ := hmemform b hb
      rw [decodeF32_encodeF32 _ (hbound u hu), decodeF32_encodeF32 _ (hbound v hv)]
      exact f32le_of_encode_le (hbound u hu) (hbound v hv) hle
    rw [floatSortPairs, ← henc, ← hsorted, List.pairwise_map]
    exact hs2
  · intro k
    by_cases hk : ∃ x ∈ l, x.1 = k
    · obtain ⟨x0, hx0, hx0k⟩ := hk
      have hklt : k < 2 ^ 32 := hx0k ▸ hbound x0 hx0
      have step1 : (floatSortPairs l).filter (fun x => x.1 = k)
          = (sorted.filter (fun x => decodeF32 x.1 = k)).map
              (fun x => (decodeF32 x.1, x.2)) := by
        rw [floatSortPairs, ← henc, ← hsorted, List.filter_map]
        rfl
      have step2 : sorted.filter (fun x => decodeF32 x.1 = k)
          = sorted.filter (fun x => x.1 = encodeF32 k) := by
        apply List.filter_congr
        intro x hx
        obtain ⟨y, hy, rfl⟩ := hmemform x hx
        simp only [decide_eq_decide]
        rw [decodeF32_encodeF32 _ (hbound y hy)]
        constructor
        · intro h; rw [h]
        · intro h
          have := congrArg decodeF32 h
          rwa [decodeF32_encodeF32 _ (hbound y hy),
            decodeF32_encodeF32 _ hklt] at this
      have step3 : sorted.filter (fun x => x.1 = encodeF32 k)
          = enc.filter (fun x => x.1 = encodeF32 k) :=
        radixSort32WithValues_filter_key enc (encodeF32 k)
      have step4 : enc.filter (fun x => x.1 = encodeF32 k)
          = (l.filter (fun x => x.1 = k)).map
              (fun x => (encodeF32 x.1, x.2)) := by
        rw [henc, List.filter_map]
        congr 1
        apply List.filter_congr
        intro x hx
        simp only [Function.comp_apply, decide_eq_decide]
        constructor
        · intro h
          have := congrArg decodeF32 h
          rwa [decodeF32_encodeF32 _ (hbound x hx),
            decodeF32_encodeF32 _ hklt] at this
        · intro h; rw [h]
      rw [step1, step2, step3, step4, List.map_map]
      have hmem2 : ∀ x ∈ l.filter (fun x : Entry α => x.1 = k),
          ((fun x : Entry α => (decodeF32 x.1, x.2)) ∘
            (fun x : Entry α => (encodeF32 x.1, x.2))) x = id x := by
        intro x hx
        have hxl : x ∈ l := List.mem_of_mem_filter hx
        simp [decodeF32_encodeF32 _ (hbound x hxl)]
      rw [List.map_congr_left hmem2, List.map_id]
    · push_neg at hk
      rw [List.filter_eq_nil_iff.2, List.filter_eq_nil_iff.2]
      · intro x hx
        simpa using fun h => hk x hx h
      · intro x hx
        have : x ∈ l := hperm.mem_iff.1 hx
        simpa using fun h => hk x this h

private theorem zip_encode (floatVals : List Nat) (keys : List α) :
    (float32ToUint32Sortable floatVals).zip keys
      = (floatVals.zip keys).map (fun x => (encodeF32 x.1, x.2)) := by
  induction floatVals generalizing keys with
  | nil => simp [float32ToUint32Sortable]
  | cons v vs ih =>
    cases keys with
    | nil => simp [float32ToUint32Sortable]
    | cons k ks =>
      simp only [float32ToUint32Sortable, List.map_cons, List.zip_cons_cons]
      rw [← float32ToUint32Sortable, ih]

private theorem zip_proj (l : List (Entry α)) :
    (l.map Prod.fst).zip (l.map Prod.snd) = l := by
  induction l with
  | nil => rfl
  | cons x l ih => simp [List.zip_cons_cons, ih]

private theorem radixSortFloat32WithKeys_ok (floatVals : List Nat)
    (keys : List α) (hlen : floatVals.length = keys.length) :
    radixSortFloat32WithKeys floatVals keys
      = .ok ((floatSortPairs (floatVals.zip keys)).map Prod.fst,
             (floatSortPairs (floatVals.zip keys)).map Prod.snd) := by
  rw [radixSortFloat32WithKeys, if_neg (by omega)]
  rw [zip_encode, floatSortPairs, List.map_map, List.map_map]
  rfl

/-- C1.  For equal-length inputs of finite float32 keys and an arbitrary
parallel payload, `radixSortFloat32WithKeys` succeeds and returns keys in
non-decreasing IEEE-754 order, the output (key, payload) pairs are a
permutation of the input pairs, entries with any fixed key keep their
original relative order (stability), the empty input yields the empty
output, and a single-element input is returned unchanged. -/
theorem C1_radixSortFloat32WithKeys_correct {α : Type} (floatVals : List Nat)
    (keys : List α) (hlen : floatVals.length = keys.length)
    (hfin : ∀ v ∈ floatVals, isFiniteF32 v) :
    ∃ sv sk, radixSortFloat32WithKeys floatVals keys = .ok (sv, sk)
      ∧ (sv.zip sk).Perm (floatVals.zip keys)
      ∧ sv.Pairwise (fun a b => f32le a b)
      ∧ (∀ k, (sv.zip sk).filter (fun p => p.1 = k)
            = (floatVals.zip keys).filter (fun p => p.1 = k))
      ∧ (floatVals = [] → sv = [] ∧ sk = [])
      ∧ (∀ v kk, floatVals = [v] → keys = [kk] → sv = [v] ∧ sk = [kk]) := by
  have hfin2 : ∀ x ∈ floatVals.zip keys, isFiniteF32 x.1 := by
    intro x hx
    exact hfin x.1 (List.of_mem_zip hx).1
  obtain ⟨hperm, hsorted, hstable⟩ := floatSortPairs_core _ hfin2
  refine ⟨(floatSortPairs (floatVals.zip keys)).map Prod.fst,
    (floatSortPairs (floatVals.zip keys)).map Prod.snd,
    radixSortFloat32WithKeys_ok floatVals keys hlen, ?_, ?_, ?_, ?_, ?_⟩
  · rw [zip_proj]; exact hperm
  · rw [List.pairwise_map]; exact hsorted
  · intro k; rw [zip_proj]; exact hstable k
  · intro hnil
    subst hnil
    have hk : keys = [] := by
      cases keys with
      | nil => rfl
      | cons k ks => simp at hlen
    subst hk
    have : floatSortPairs ([] : List (Entry α)) = [] :=
      List.Perm.eq_nil (by simpa using hperm)
    simp [this]
  · intro v kk hv hkk
    subst hv; subst hkk
    have : floatSortPairs [(v, kk)] = [(v, kk)] := by
      have := hperm
      simp only [List.zip_cons_cons, List.zip_nil_right] at this
      exact List.perm_singleton.1 this
    simp [this]

/-- Witness for C1: keys `1.0` (pattern `0x3F800000`) and `-2.0`
(pattern `0xC0000000`) with payloads `10`, `20`. -/
theorem C1_witness :
    ∃ sv sk, radixSortFloat32WithKeys [1065353216, 3221225472] [10, 20]
        = .ok (sv, sk)
      ∧ (sv.zip sk).Perm ([1065353216, 3221225472].zip [10, 20])
      ∧ sv.Pairwise (fun a b => f32le a b)
      ∧ (∀ k, (sv.zip sk).filter (fun p => p.1 = k)
            = ([1065353216, 3221225472].zip [10, 20]).filter (fun p => p.1 = k))
      ∧ ([1065353216, 3221225472] = ([] : List Nat) → sv = [] ∧ sk = [])
      ∧ (∀ v kk, [1065353216, 3221225472] = [v] → [10, 20] = [kk]
            → sv = [v] ∧ sk = [kk]) :=
  C1_radixSortFloat32WithKeys_correct [1065353216, 3221225472] [10, 20]
    (by decide) (by decide)

/-- C10.  `radixSortFloat32WithKeys` reports an error exactly when the two
input arrays disagree in length; on equal lengths it returns fresh output
lists of the same lengths (the embedding is pure: the argument lists are
left untouched, matching the source's `slice()` copies and freshly
allocated outputs). -/
theorem C10_radixSortFloat32WithKeys_error_iff {α : Type} (floatVals : List Nat)
    (keys : List α) :
    ((radixSortFloat32WithKeys floatVals keys).isOk = true
        ↔ floatVals.length = keys.length)
    ∧ (floatVals.length ≠ keys.length →
        radixSortFloat32WithKeys floatVals keys
          = .error "floatVals and keys must be same length")
    ∧ (floatVals.length = keys.length →
        ∃ sv sk, radixSortFloat32WithKeys floatVals keys = .ok (sv, sk)
          ∧ sv.length = floatVals.length ∧ sk.length = keys.length) := by
  refine ⟨?_, ?_, ?_⟩
  · constructor
    · intro h
      by_contra hne
      rw [radixSortFloat32WithKeys, if_pos hne] at h
      simp [Except.isOk, Except.toBool] at h
    · intro h
      rw [radixSortFloat32WithKeys_ok floatVals keys h]
      rfl
  · intro hne
    rw [radixSortFloat32WithKeys, if_pos hne]
  · intro h
    refine ⟨_, _, radixSortFloat32WithKeys_ok floatVals keys h, ?_, ?_⟩
    · rw [List.length_map, floatSortPairs]
      rw [List.length_map, (radixSort32WithValues_perm _).length_eq,
        List.length_map, List.length_zip]
      omega
    · rw [List.length_map, floatSortPairs]
      rw [List.length_map, (radixSort32WithValues_perm _).length_eq,
        List.length_map, List.length_zip]
      omega

private theorem needsCullWater_eq_spec (ctx : CullCtx) (dir : Direction) :
    needsCullWater ctx dir = .ok (needsCullWaterSpec ctx dir) := by
  rcases ctx with ⟨bn, bw, cube, nb, nf, nq⟩
  cases nb with
  | none => rfl
  | some st =>
    rcases st with ⟨a, w, nm, lv⟩
    cases a <;> cases bw <;> cases w <;> cases hfo : flagsOpaq nf <;>
      cases nq <;> cases dir <;>
      simp_all [needsCullWater, needsCullWaterSpec, neighborIsOpaq]

/-- C2.  For every block/neighbor context and direction the water-cull
predicate returns (never throws) exactly the value the specification's
case table prescribes: no signal without a neighbor or on an air
neighbor; the neighbor's level (default 0) when both are waterlogged;
no cull when waterlogged against a non-opaque neighbor; no cull when
waterlogged against an opaque neighbor on the up face; the neighbor's
level when waterlogged against an opaque neighbor on another face; and
the neighbor's level when not waterlogged. -/
theorem C2_needsCullWater_spec (ctx : CullCtx) (dir : Direction) :
    needsCullWater ctx dir = .ok (needsCullWaterSpec ctx dir) :=
  needsCullWater_eq_spec ctx dir

/-- C3.  For every block/neighbor context the shape-cull predicate
matches the specification's case table: false without a neighbor or on
air; true for an identical self-culling neighbor when the block is a
full cube; true for an (override-resolved) opaque neighbor when the
block is a full cube; false otherwise. -/
theorem C3_needsCullBlock_spec (ctx : CullCtx) :
    needsCullBlock ctx = needsCullBlockSpec ctx := by
  rcases ctx with ⟨bn, bw, cube, nb, nf, nq⟩
  cases nb with
  | none => rfl
  | some st =>
    rcases st with ⟨a, w, nm, lv⟩
    cases a <;> cases cube <;>
      simp_all [needsCullBlock, needsCullBlockSpec, Bool.and_comm,
        Bool.and_assoc, Bool.and_left_comm]

/-- C5.  Whenever the current block is waterlogged one of the four
explicit waterlogged cases fires, so the guarded fall-through before the
`throw new Error('This line should not be reached')` is unreachable: its
guard is false on every input, and the function as a whole never takes
the error branch. -/
theorem C5_waterFallThrough_unreachable :
    (∀ (ctx : CullCtx) (dir : Direction), waterFallThrough ctx dir = false)
    ∧ (∀ (ctx : CullCtx) (dir : Direction), (needsCullWater ctx dir).isOk = true) := by
  constructor
  · intro ctx dir
    rcases ctx with ⟨bn, bw, cube, nb, nf, nq⟩
    cases nb with
    | none => rfl
    | some st =>
      rcases st with ⟨a, w, nm, lv⟩
      cases a <;> cases bw <;> cases w <;> cases hfo : flagsOpaq nf <;>
        cases nq <;> cases dir <;>
        simp_all [waterFallThrough, neighborIsOpaq]
  · intro ctx dir
    rw [needsCullWater_eq_spec]
    rfl

theorem decodeChunkCoord_encodeChunkCoord (c : Int) :
    decodeChunkCoord (encodeChunkCoord c) = c := by
  rw [encodeChunkCoord, decodeChunkCoord]
  by_cases hc : c < 0
  · rw [if_pos hc, if_neg (by omega)]
    omega
  · rw [if_neg hc, if_pos (by omega)]
    omega

/-- C6.  The per-axis zig-zag encoding of signed chunk coordinates is
total (any integer yields an index), collision-free (injective), and the
enumeration decode inverts it exactly: `decode (encode c) = c` for every
integer `c`. -/
theorem C6_chunkCoord_roundtrip :
    (∀ c : Int, decodeChunkCoord (encodeChunkCoord c) = c)
    ∧ Function.Injective encodeChunkCoord := by
  refine ⟨decodeChunkCoord_encodeChunkCoord, ?_⟩
  intro a b hab
  have ha := decodeChunkCoord_encodeChunkCoord a
  have hb := decodeChunkCoord_encodeChunkCoord b
  rw [← ha, ← hb, hab]

private theorem chunk_getMesh_drain {Q : Type} (c : Chunk Q) :
    ((c.getMesh).1).quads
        = ((c.mergedMesh.getD Mesh.new).mergeAll c.unmergedMeshList).quads
    ∧ (c.getMesh).2.unmergedMeshList = []
    ∧ (c.getMesh).2.mergedMesh = some (c.getMesh).1
    ∧ (c.getMesh).2.unmergedTransparentMeshList = c.unmergedTransparentMeshList
    ∧ (c.getMesh).2.mergedTransparentMesh = c.mergedTransparentMesh := by
  rcases c with ⟨u, ut, m, mt⟩
  rw [Chunk.getMesh]
  by_cases hu : u.length > 0
  · rw [if_pos hu]
    exact ⟨rfl, rfl, rfl, rfl, rfl⟩
  · rw [if_neg hu]
    have : u = [] := List.length_eq_zero.1 (by omega)
    subst this
    exact ⟨rfl, rfl, rfl, rfl, rfl⟩

private theorem chunk_getMesh_idem {Q : Type} (c : Chunk Q) :
    (c.getMesh).2.getMesh = ((c.getMesh).1, (c.getMesh).2) := by
  obtain ⟨h1, h2, h3, h4, h5⟩ := chunk_getMesh_drain c
  rcases hc : c.getMesh with ⟨m, c'⟩
  rw [hc] at h1 h2 h3 h4 h5
  simp only at h1 h2 h3 h4 h5
  rw [Chunk.getMesh, h2, h3]
  simp only [List.length_nil, gt_iff_lt, Nat.lt_irrefl, if_neg (by omega : ¬ (0:Nat) > 0)]
  rcases c' with ⟨u', ut', m', mt'⟩
  simp only at h2 h3
  subst h2; subst h3
  rfl

private theorem row_drain_fix {Q : Type} (row : List (Option (Chunk Q))) :
    (row.map (fun oc => oc.map (fun c => (c.getMesh).2))).flatMap
        (fun oc =>
          match oc with
          | none => []
          | some c =>
            let m := (c.getMesh).1
            if m.isEmpty then [] else [m])
      = row.flatMap (fun oc =>
          match oc with
          | none => []
          | some c =>
            let m := (c.getMesh).1
            if m.isEmpty then [] else [m])
    ∧ (row.map (fun oc => oc.map (fun c => (c.getMesh).2))).map
        (fun oc => oc.map (fun c => (c.getMesh).2))
      = row.map (fun oc => oc.map (fun c => (c.getMesh).2)) := by
  induction row with
  | nil => exact ⟨rfl, rfl⟩
  | cons oc row ih =>
    obtain ⟨ih1, ih2⟩ := ih
    constructor
    · simp only [List.map_cons, List.flatMap_cons, ih1]
      congr 1
      cases oc with
      | none => rfl
      | some c => simp [chunk_getMesh_idem c]
    · simp only [List.map_cons, ih2]
      congr 1
      cases oc with
      | none => rfl
      | some c => simp [chunk_getMesh_idem c]

private theorem plane_drain_fix {Q : Type} (plane : List (List (Option (Chunk Q)))) :
    (plane.map (fun row => row.map (fun oc => oc.map (fun c => (c.getMesh).2)))).flatMap
        (fun row => row.flatMap (fun oc =>
          match oc with
          | none => []
          | some c =>
            let m := (c.getMesh).1
            if m.isEmpty then [] else [m]))
      = plane.flatMap (fun row => row.flatMap (fun oc =>
          match oc with
          | none => []
          | some c =>
            let m := (c.getMesh).1
            if m.isEmpty then [] else [m]))
    ∧ (plane.map (fun row => row.map (fun oc => oc.map (fun c => (c.getMesh).2)))).map
        (fun row => row.map (fun oc => oc.map (fun c => (c.getMesh).2)))
      = plane.map (fun row => row.map (fun oc => oc.map (fun c => (c.getMesh).2))) := by
  induction plane with
  | nil => exact ⟨rfl, rfl⟩
  | cons row plane ih =>
    obtain ⟨ih1, ih2⟩ := ih
    obtain ⟨hr1, hr2⟩ := row_drain_fix row
    constructor
    · simp only [List.map_cons, List.flatMap_cons, ih1, hr1]
    · simp only [List.map_cons, ih2, hr2]

/-- C8.  Reading the non-transparent meshes twice with no intervening
update yields the same meshes and the same store: the pending list drains
into the cached merged mesh exactly once, and each returned mesh is the
cached mesh extended by exactly the quads appended since the last merge. -/
theorem C8_getNonTransparentMeshes_idempotent {Q : Type} (s : ChunkStore Q) :
    (getNonTransparentMeshes (getNonTransparentMeshes s).2).1
        = (getNonTransparentMeshes s).1
    ∧ (getNonTransparentMeshes (getNonTransparentMeshes s).2).2
        = (getNonTransparentMeshes s).2
    ∧ (∀ c : Chunk Q,
        ((c.getMesh).1).quads
          = ((c.mergedMesh.getD Mesh.new).mergeAll c.unmergedMeshList).quads
        ∧ (c.getMesh).2.unmergedMeshList = []
        ∧ (c.getMesh).2.getMesh = ((c.getMesh).1, (c.getMesh).2)) := by
  refine ⟨?_, ?_, ?_⟩
  · rw [getNonTransparentMeshes, getNonTransparentMeshes]
    simp only
    induction s with
    | nil => rfl
    | cons plane s ih =>
      obtain ⟨hp1, hp2⟩ := plane_drain_fix plane
      simp only [List.map_cons, List.flatMap_cons, hp1]
      rw [ih]
  · rw [getNonTransparentMeshes, getNonTransparentMeshes]
    simp only
    induction s with
    | nil => rfl
    | cons plane s ih =>
      obtain ⟨hp1, hp2⟩ := plane_drain_fix plane
      simp only [List.map_cons, hp2]
      rw [ih]
  · intro c
    obtain ⟨h1, h2, _, _, _⟩ := chunk_getMesh_drain c
    exact ⟨h1, h2, chunk_getMesh_idem c⟩

private theorem getD_setAt_self {β : Type} (l : List β) (i : Nat) (b d d' : β) :
    (setAt l i b d).getD i d' = b := by
  rw [setAt, List.getD_eq_getElem?_getD]
  rw [List.getElem?_set_self (by rw [List.length_append, List.length_replicate]; omega)]
  rfl

private theorem getD_setAt_ne {β : Type} (l : List β) (i j : Nat) (b d : β)
    (h : j ≠ i) : (setAt l i b d).getD j d = l.getD j d := by
  rw [setAt, List.getD_eq_getElem?_getD, List.getD_eq_getElem?_getD,
    List.getElem?_set_ne (fun hh => h hh.symm)]
  by_cases hj : j < l.length
  · rw [List.getElem?_append_left hj]
  · rw [List.getElem?_append_right (by omega)]
    rw [List.getElem?_eq_none (l := l) (by omega)]
    by_cases hr : j - l.length < i + 1 - l.length
    · rw [List.getElem?_replicate_of_lt hr]
      rfl
    · rw [List.getElem?_eq_none (by rw [List.length_replicate]; omega)]

/-- Writing one chunk slot leaves every other slot's read unchanged. -/
theorem chunkAt_setChunk_ne {Q : Type} (s : ChunkStore Q) (x y z : Nat)
    (c : Chunk Q) (x' y' z' : Nat) (h : (x', y', z') ≠ (x, y, z)) :
    chunkAt (setChunk s x y z c) x' y' z' = chunkAt s x' y' z' := by
  rw [chunkAt, chunkAt, setChunk]
  by_cases hx : x' = x
  · subst hx
    rw [getD_setAt_self]
    by_cases hy : y' = y
    · subst hy
      rw [getD_setAt_self]
      have hz : z' ≠ z := by
        intro hz
        exact h (by rw [hz])
      rw [getD_setAt_ne _ _ _ _ _ hz]
    · rw [getD_setAt_ne _ _ _ _ _ hy]
  · rw [getD_setAt_ne _ _ _ _ _ hx]

/-- Reading back the slot just written. -/
theorem chunkAt_setChunk_self {Q : Type} (s : ChunkStore Q) (x y z : Nat)
    (c : Chunk Q) : chunkAt (setChunk s x y z c) x y z = some c := by
  rw [chunkAt, setChunk, getD_setAt_self, getD_setAt_self, getD_setAt_self]

private theorem encodeChunkCoord_inj {a b : Int}
    (hab : encodeChunkCoord a = encodeChunkCoord b) : a = b := by
  rw [encodeChunkCoord, encodeChunkCoord] at hab
  by_cases ha : a < 0 <;> by_cases hb : b < 0
  · rw [if_pos ha, if_pos hb] at hab; omega
  · rw [if_pos ha, if_neg hb] at hab; omega
  · rw [if_neg ha, if_pos hb] at hab; omega
  · rw [if_neg ha, if_neg hb] at hab; omega

private theorem encodeChunkPos_inj {p q : Int × Int × Int}
    (h : encodeChunkPos p = encodeChunkPos q) : p = q := by
  rcases p with ⟨p1, p2, p3⟩
  rcases q with ⟨q1, q2, q3⟩
  simp only [encodeChunkPos, Prod.mk.injEq] at h
  obtain ⟨h1, h2, h3⟩ := h
  simp only [Prod.mk.injEq]
  exact ⟨encodeChunkCoord_inj h1, encodeChunkCoord_inj h2, encodeChunkCoord_inj h3⟩

/-- `getChunk` at one coordinate does not disturb any other coordinate's
slot. -/
theorem chunkAtPos_getChunk_ne {Q : Type} (s : ChunkStore Q)
    (p q : Int × Int × Int) (h : q ≠ p) :
    chunkAtPos (getChunk s p).2 q = chunkAtPos s q := by
  have hneq : ((encodeChunkPos q).1, (encodeChunkPos q).2.1, (encodeChunkPos q).2.2)
      ≠ ((encodeChunkPos p).1, (encodeChunkPos p).2.1, (encodeChunkPos p).2.2) :=
    fun hc => h (encodeChunkPos_inj hc)
  rw [chunkAtPos, chunkAtPos, getChunk]
  rcases hm : chunkAt s (encodeChunkPos p).1 (encodeChunkPos p).2.1
      (encodeChunkPos p).2.2 with _ | c
  · simp only
    exact chunkAt_setChunk_ne _ _ _ _ _ _ _ _ hneq
  · simp only
    exact chunkAt_setChunk_ne _ _ _ _ _ _ _ _ hneq

theorem sortChunkListByDistance_ok {Q : Type} (toF32 : ℚ → Nat)
    (cam : ℚ × ℚ × ℚ) (chunkList : List (Chunk Q × (ℚ × ℚ × ℚ))) :
    radixSortFloat32WithKeys
        (chunkList.map (fun e => toF32 (negSquaredDistance cam e.2))) chunkList
      = .ok ((floatSortPairs
          ((chunkList.map (fun e => toF32 (negSquaredDistance cam e.2))).zip
            chunkList)).map Prod.fst,
        sortChunkListByDistance toF32 cam chunkList) :=
  radixSortFloat32WithKeys_ok _ _ (by rw [List.length_map])

private theorem mem_enumerateChunks_of_chunkAt {Q : Type} (s : ChunkStore Q)
    (size : Int × Int × Int) (x y z : Nat) (c : Chunk Q)
    (h : chunkAt s x y z = some c) :
    (c, chunkCenter size x y z) ∈ enumerateChunks s size := by
  rw [chunkAt] at h
  simp only [List.getD_eq_getElem?_getD] at h
  rcases hx : s[x]? with _ | plane
  · rw [hx] at h; simp at h
  rw [hx] at h
  simp only [Option.getD_some] at h
  rcases hy : plane[y]? with _ | row
  · rw [hy] at h; simp at h
  rw [hy] at h
  simp only [Option.getD_some] at h
  rcases hz : row[z]? with _ | oc
  · rw [hz] at h; simp at h
  rw [hz] at h
  simp only [Option.getD_some] at h
  subst h
  rw [enumerateChunks]
  rw [List.mem_flatMap]
  refine ⟨(x, plane), List.mem_enum_iff_getElem?.2 hx, ?_⟩
  rw [List.mem_flatMap]
  refine ⟨(y, row), List.mem_enum_iff_getElem?.2 hy, ?_⟩
  rw [List.mem_flatMap]
  exact ⟨(z, some c), List.mem_enum_iff_getElem?.2 hz, by simp⟩

/-- C7.  `getTransparentMeshes`: every stored chunk is enumerated with
center `grid coordinate × chunk size + half chunk size`; the chunk list
is reordered by the radix sort on the float32 keys
`toF32 (-‖center - camera‖²)` into a permutation whose keys ascend in
IEEE-754 order (farthest-to-nearest) with ties keeping enumeration order
(stability: the entries under any fixed key are preserved); the result
maps each chunk to its merged transparent mesh, discarding empties. -/
theorem C7_getTransparentMeshes_ordered {Q : Type} (s : ChunkStore Q)
    (size : Int × Int × Int) (cam : ℚ × ℚ × ℚ) (toF32 : ℚ → Nat)
    (hfin : ∀ e ∈ enumerateChunks s size,
      isFiniteF32 (toF32 (negSquaredDistance cam e.2))) :
    (∀ (p : Int × Int × Int) (c : Chunk Q), chunkAtPos s p = some c →
      (c, ((p.1 : ℚ) * (size.1 : ℚ) + (size.1 : ℚ) / 2,
           (p.2.1 : ℚ) * (size.2.1 : ℚ) + (size.2.1 : ℚ) / 2,
           (p.2.2 : ℚ) * (size.2.2 : ℚ) + (size.2.2 : ℚ) / 2))
        ∈ enumerateChunks s size)
    ∧ (sortChunkListByDistance toF32 cam (enumerateChunks s size)).Perm
        (enumerateChunks s size)
    ∧ (floatSortPairs
        (((enumerateChunks s size).map
            (fun e => toF32 (negSquaredDistance cam e.2))).zip
          (enumerateChunks s size))).Pairwise (fun a b => f32le a.1 b.1)
    ∧ (∀ k, (floatSortPairs
        (((enumerateChunks s size).map
            (fun e => toF32 (negSquaredDistance cam e.2))).zip
          (enumerateChunks s size))).filter (fun p => p.1 = k)
        = (((enumerateChunks s size).map
            (fun e => toF32 (negSquaredDistance cam e.2))).zip
          (enumerateChunks s size)).filter (fun p => p.1 = k))
    ∧ getTransparentMeshes s size cam toF32
        = ((sortChunkListByDistance toF32 cam (enumerateChunks s size)).map
            (fun e => (e.1.getTransparentMesh).1)).filter (fun m => !m.isEmpty) := by
  have hkeys : ∀ x ∈ ((enumerateChunks s size).map
        (fun e => toF32 (negSquaredDistance cam e.2))).zip
      (enumerateChunks s size), isFiniteF32 x.1 := by
    intro x hx
    have h1 := (List.of_mem_zip hx).1
    obtain ⟨e, he, hex⟩ := List.mem_map.1 h1
    rw [← hex]
    exact hfin e he
  obtain ⟨hperm, hsorted, hstable⟩ := floatSortPairs_core _ hkeys
  refine ⟨?_, ?_, hsorted, hstable, rfl⟩
  · intro p c hp
    have := mem_enumerateChunks_of_chunkAt s size
      (encodeChunkPos p).1 (encodeChunkPos p).2.1 (encodeChunkPos p).2.2 c hp
    rw [chunkCenter, encodeChunkPos] at this
    simp only [decodeChunkCoord_encodeChunkCoord] at this
    exact this
  · rw [sortChunkListByDistance]
    have h2 : ((((enumerateChunks s size).map
          (fun e => toF32 (negSquaredDistance cam e.2))).zip
        (enumerateChunks s size)).map Prod.snd) = enumerateChunks s size := by
      apply List.map_snd_zip
      rw [List.length_map]
    have h3 := hperm.map (Prod.snd (α := Nat) (β := Chunk Q × ℚ × ℚ × ℚ))
    rw [h2] at h3
    exact h3

private theorem chunkAtPos_setChunkPos_ne {Q : Type} (s : ChunkStore Q)
    (q p : Int × Int × Int) (c : Chunk Q) (h : p ≠ q) :
    chunkAtPos (setChunk s (encodeChunkPos q).1 (encodeChunkPos q).2.1
      (encodeChunkPos q).2.2 c) p = chunkAtPos s p :=
  chunkAt_setChunk_ne _ _ _ _ _ _ _ _ (fun hc => h (encodeChunkPos_inj hc))

private theorem clearChunks_frame {Q : Type} (p : Int × Int × Int) :
    ∀ (ps : List (Int × Int × Int)) (s : ChunkStore Q), p ∉ ps →
      chunkAtPos (clearChunks s ps) p = chunkAtPos s p := by
  intro ps
  induction ps with
  | nil => intro s _; rfl
  | cons q ps ih =>
    intro s hp
    have hq : p ≠ q := fun h => hp (h ▸ List.mem_cons_self q ps)
    have hps : p ∉ ps := fun h => hp (List.mem_cons_of_mem q h)
    rw [clearChunks, List.foldl_cons, ← clearChunks, ih _ hps]
    rw [chunkAtPos_setChunkPos_ne _ _ _ _ hq]
    exact chunkAtPos_getChunk_ne _ _ _ hq

private theorem updateBlocksRev2_frame {Q : Type}
    (br : PlacedBlock → Except String (List (Mesh Q × Bool)))
    (size : Int × Int × Int) (ps : List (Int × Int × Int))
    (p : Int × Int × Int) (hp : p ∉ ps) :
    ∀ (blocks : List PlacedBlock) (s : ChunkStore Q),
      chunkAtPos (updateBlocksRev2 br size (some ps) blocks s).1 p
        = chunkAtPos s p := by
  intro blocks
  induction blocks with
  | nil => intro s; rfl
  | cons b rest ih =>
    intro s
    rw [updateBlocksRev2]
    by_cases hair : b.air
    · rw [if_pos hair]
      exact ih s
    · rw [if_neg hair]
      by_cases hskip : inChunkSet (some ps) (blockChunkPos size b.pos)
      · rw [if_neg (by simp [hskip])]
        have hmem : blockChunkPos size b.pos ∈ ps := by
          rw [inChunkSet] at hskip
          exact of_decide_eq_true hskip
        have hne : p ≠ blockChunkPos size b.pos := fun h => hp (h ▸ hmem)
        rcases hbr : br b with e | merges
        · simp only [hbr]
          exact chunkAtPos_getChunk_ne _ _ _ hne
        · simp only [hbr]
          rw [ih]
          rw [chunkAtPos_setChunkPos_ne _ _ _ _ hne]
          exact chunkAtPos_getChunk_ne _ _ _ hne
      · rw [if_pos (by simp [hskip])]
        exact ih s

/-- C9.  A partial rebuild restricted to the chunk set `{C}` leaves every
chunk with a coordinate outside `{C}` untouched: it is neither cleared nor
merged into, whether the rebuild completes or aborts on a build error. -/
theorem C9_update_frame {Q : Type} (s : ChunkStore Q) (blocks : List PlacedBlock)
    (br : PlacedBlock → Except String (List (Mesh Q × Bool)))
    (size : Int × Int × Int) (ps : List (Int × Int × Int))
    (p : Int × Int × Int) (hp : p ∉ ps) :
    chunkAtPos (updateStructureBuffersRev2 s blocks br size (some ps)).1 p
      = chunkAtPos s p := by
  rw [updateStructureBuffersRev2]
  rw [updateBlocksRev2_frame br size ps p hp blocks (clearChunks s ps)]
  exact clearChunks_frame p ps s hp

/-- Witness for C9: a store holding one chunk at coordinate `(0,0,0)`,
rebuilding only chunk `(1,0,0)` with one block inside it. -/
theorem C9_witness :
    chunkAtPos (updateStructureBuffersRev2 [[[some (Chunk.new (Q := Nat))]]]
        [⟨(16, 0, 0), false⟩]
        (fun _ => .ok [(⟨[5]⟩, false)]) (16, 16, 16) (some [(1, 0, 0)])).1
        (0, 0, 0)
      = chunkAtPos [[[some (Chunk.new (Q := Nat))]]] (0, 0, 0) :=
  C9_update_frame _ _ _ _ _ _ (by decide)

/-- Witness for C7: one stored chunk, camera at the origin, a constant
float32 conversion (pattern `0x80000000`, the finite value `-0.0`). -/
theorem C7_witness :
    (∀ (p : Int × Int × Int) (c : Chunk Nat),
      chunkAtPos [[[some (Chunk.new (Q := Nat))]]] p = some c →
      (c, ((p.1 : ℚ) * ((16 : Int) : ℚ) + ((16 : Int) : ℚ) / 2,
           (p.2.1 : ℚ) * ((16 : Int) : ℚ) + ((16 : Int) : ℚ) / 2,
           (p.2.2 : ℚ) * ((16 : Int) : ℚ) + ((16 : Int) : ℚ) / 2))
        ∈ enumerateChunks [[[some (Chunk.new (Q := Nat))]]] (16, 16, 16))
    ∧ (sortChunkListByDistance (fun _ => 2147483648) (0, 0, 0)
        (enumerateChunks [[[some (Chunk.new (Q := Nat))]]] (16, 16, 16))).Perm
        (enumerateChunks [[[some (Chunk.new (Q := Nat))]]] (16, 16, 16))
    ∧ (floatSortPairs
        (((enumerateChunks [[[some (Chunk.new (Q := Nat))]]] (16, 16, 16)).map
            (fun e => (fun _ => 2147483648) (negSquaredDistance (0, 0, 0) e.2))).zip
          (enumerateChunks [[[some (Chunk.new (Q := Nat))]]]
            (16, 16, 16)))).Pairwise (fun a b => f32le a.1 b.1)
    ∧ (∀ k, (floatSortPairs
        (((enumerateChunks [[[some (Chunk.new (Q := Nat))]]] (16, 16, 16)).map
            (fun e => (fun _ => 2147483648) (negSquaredDistance (0, 0, 0) e.2))).zip
          (enumerateChunks [[[some (Chunk.new (Q := Nat))]]]
            (16, 16, 16)))).filter (fun p => p.1 = k)
        = (((enumerateChunks [[[some (Chunk.new (Q := Nat))]]] (16, 16, 16)).map
            (fun e => (fun _ => 2147483648) (negSquaredDistance (0, 0, 0) e.2))).zip
          (enumerateChunks [[[some (Chunk.new (Q := Nat))]]]
            (16, 16, 16))).filter (fun p => p.1 = k))
    ∧ getTransparentMeshes [[[some (Chunk.new (Q := Nat))]]] (16, 16, 16)
        (0, 0, 0) (fun _ => 2147483648)
        = ((sortChunkListByDistance (fun _ => 2147483648) (0, 0, 0)
            (enumerateChunks [[[some (Chunk.new (Q := Nat))]]] (16, 16, 16))).map
            (fun e => (e.1.getTransparentMesh).1)).filter (fun m => !m.isEmpty) :=
  C7_getTransparentMeshes_ordered [[[some (Chunk.new (Q := Nat))]]] (16, 16, 16)
    (0, 0, 0) (fun _ => 2147483648)
    (fun _ _ => show isFiniteF32 2147483648 by decide)

private theorem updateBlocksRev1_log {Q : Type}
    (br : PlacedBlock → Except String (List (Mesh Q × Bool)))
    (size : Int × Int × Int) (cps : Option (List (Int × Int × Int))) :
    ∀ (blocks : List PlacedBlock) (s : ChunkStore Q) (log : List String),
      (updateBlocksRev1 br size cps blocks s log).2
        = log ++ (blocks.filter (blockProcessed size cps)).filterMap
            (fun b => errOf (br b)) := by
  intro blocks
  induction blocks with
  | nil => intro s log; simp [updateBlocksRev1]
  | cons b rest ih =>
    intro s log
    rw [updateBlocksRev1]
    by_cases hair : b.air
    · rw [if_pos hair, ih]
      have : blockProcessed size cps b = false := by
        rw [blockProcessed, hair]
        rfl
      rw [List.filter_cons, if_neg (by rw [this]; simp)]
    · rw [if_neg hair]
      by_cases hin : inChunkSet cps (blockChunkPos size b.pos)
      · rw [if_neg (by simp [hin])]
        have hproc : blockProcessed size cps b = true := by
          rw [blockProcessed, hin]
          simp [hair]
        rcases hbr : br b with e | merges
        · simp only [hbr]
          rw [ih, List.filter_cons, if_pos (by rw [hproc]),
            List.filterMap_cons]
          simp [errOf, hbr]
        · simp only [hbr]
          rw [ih, List.filter_cons, if_pos (by rw [hproc]),
            List.filterMap_cons]
          simp [errOf, hbr]
      · rw [if_pos (by simp [hin])]
        rw [ih]
        have : blockProcessed size cps b = false := by
          rw [blockProcessed]
          simp [hin]
        rw [List.filter_cons, if_neg (by rw [this]; simp)]

private theorem updateBlocksRev2_err {Q : Type}
    (br : PlacedBlock → Except String (List (Mesh Q × Bool)))
    (size : Int × Int × Int) (cps : Option (List (Int × Int × Int))) :
    ∀ (blocks : List PlacedBlock) (s : ChunkStore Q),
      (updateBlocksRev2 br size cps blocks s).2
        = ((blocks.filter (blockProcessed size cps)).filterMap
            (fun b => errOf (br b))).head? := by
  intro blocks
  induction blocks with
  | nil => intro s; simp [updateBlocksRev2]
  | cons b rest ih =>
    intro s
    rw [updateBlocksRev2]
    by_cases hair : b.air
    · rw [if_pos hair, ih]
      have : blockProcessed size cps b = false := by
        rw [blockProcessed, hair]
        rfl
      rw [List.filter_cons, if_neg (by rw [this]; simp)]
    · rw [if_neg hair]
      by_cases hin : inChunkSet cps (blockChunkPos size b.pos)
      · rw [if_neg (by simp [hin])]
        have hproc : blockProcessed size cps b = true := by
          rw [blockProcessed, hin]
          simp [hair]
        rcases hbr : br b with e | merges
        · simp only [hbr]
          rw [List.filter_cons, if_pos (by rw [hproc]),
            List.filterMap_cons]
          simp [errOf, hbr]
        · simp only [hbr]
          rw [ih, List.filter_cons, if_pos (by rw [hproc]),
            List.filterMap_cons]
          simp [errOf, hbr]
      · rw [if_pos (by simp [hin])]
        rw [ih]
        have : blockProcessed size cps b = false := by
          rw [blockProcessed]
          simp [hin]
        rw [List.filter_cons, if_neg (by rw [this]; simp)]

/-- C4 counterexample.  Current revision, concrete run: the first block's
geometry build throws, the second block's would succeed.  The error
escapes `updateStructureBuffers` to the caller, and the second block's
chunk is never built — the rebuild did not continue, contradicting the
claim that a per-block failure is contained and the rebuild continues. -/
theorem C4_counterexample :
    (updateStructureBuffersRev2 ([] : ChunkStore Nat)
        [⟨(0, 0, 0), false⟩, ⟨(16, 0, 0), false⟩]
        (fun b => if b.pos.1 = 0 then .error "boom" else .ok [(⟨[7]⟩, false)])
        (16, 16, 16) none).2 = some "boom"
    ∧ chunkAtPos (updateStructureBuffersRev2 ([] : ChunkStore Nat)
        [⟨(0, 0, 0), false⟩, ⟨(16, 0, 0), false⟩]
        (fun b => if b.pos.1 = 0 then .error "boom" else .ok [(⟨[7]⟩, false)])
        (16, 16, 16) none).1 (1, 0, 0) = none := by
  constructor <;> rfl

/-- C4 as amended.  A per-block geometry-build failure is caught and
logged in both revisions.  In the first revision the block is skipped and
the loop continues: the log collects the error of every processed failing
block, and no error escapes (the call returns normally).  In the current
(second) revision the logged failure is re-thrown: the call reports the
first failing processed block's error to the caller, aborting the rest of
the rebuild; only when no processed block fails does it return without
error. -/
theorem C4_perBlockFailure_behavior {Q : Type} (s : ChunkStore Q)
    (blocks : List PlacedBlock)
    (br : PlacedBlock → Except String (List (Mesh Q × Bool)))
    (size : Int × Int × Int) (cps : Option (List (Int × Int × Int))) :
    (updateStructureBuffersRev1 s blocks br size cps).2
        = (blocks.filter (blockProcessed size cps)).filterMap
            (fun b => errOf (br b))
    ∧ (updateStructureBuffersRev2 s blocks br size cps).2
        = ((blocks.filter (blockProcessed size cps)).filterMap
            (fun b => errOf (br b))).head? := by
  constructor
  · unfold updateStructureBuffersRev1
    rw [updateBlocksRev1_log]
    exact List.nil_append _
  · unfold updateStructureBuffersRev2
    rw [updateBlocksRev2_err]

/-- Witness for C10: a mismatched pair of inputs errors, a matched pair
succeeds with full-length outputs. -/
theorem C10_witness :
    ((radixSortFloat32WithKeys [1065353216] ([] : List Nat)).isOk = true
        ↔ [1065353216].length = ([] : List Nat).length)
    ∧ ([1065353216].length ≠ ([] : List Nat).length →
        radixSortFloat32WithKeys [1065353216] ([] : List Nat)
          = .error "floatVals and keys must be same length")
    ∧ ([1065353216].length = ([] : List Nat).length →
        ∃ sv sk, radixSortFloat32WithKeys [1065353216] ([] : List Nat)
            = .ok (sv, sk)
          ∧ sv.length = [1065353216].length ∧ sk.length = ([] : List Nat).length) :=
  C10_radixSortFloat32WithKeys_error_iff [1065353216] ([] : List Nat)

end Deepslate
